import Mathlib

/-!
Shallow embedding of the stock-wise-accelerate C analytics modules
(src/c_modules/src/stock_span.c, segment_tree.c, sliding_window.c).

Modelling conventions used throughout:
* C doubles are modelled as exact rationals; a raw input cell is a DVal,
  which is either a finite rational or one of the non-finite IEEE values
  (NaN / ±Inf) that the validation loops reject before any arithmetic runs.
* C pointers that may be NULL are modelled as Option values; a Bool flag
  models whether an output pointer was supplied.
* malloc is modelled by Bool oracle parameters (true = allocation succeeds):
  the code's validation/allocation ordering is kept exactly.
* size_t loop arithmetic is carried out on ℕ; where C subtraction could
  wrap, the surrounding guard from the source is noted at the definition.
-/

namespace StockWise

/-- A raw IEEE double cell: a finite value (carried exactly as a rational)
or a non-finite value, which the C validation loops reject with status -4. -/
inductive DVal where
  | fin (q : ℚ)
  | nan
  | inf
deriving DecidableEq, Repr

/-- Mirrors the per-element check isnan(x) || isinf(x) being false. -/
def DVal.isFinite : DVal → Bool
  | .fin _ => true
  | _ => false

/-- The rational payload of a validated (finite) cell. -/
def DVal.toRat : DVal → ℚ
  | .fin q => q
  | _ => 0

/-- MAX_ARRAY_SIZE from the C sources (10M elements). -/
def MAX_ARRAY_SIZE : ℕ := 10000000

/-! ## SpanCalculator: src/c_modules/src/stock_span.c -/

/-- One iteration of the span loop (stock_span.c lines 100-113): pop all
stack entries whose price is ≤ the current price (the while loop is a
dropWhile on the index stack, head = top), emit the span for position i,
push i. State: (index stack, spans emitted so far). -/
def spanStep (p : ℕ → ℚ) (st : List ℕ × List ℤ) (i : ℕ) : List ℕ × List ℤ :=
  let stack1 := st.1.dropWhile (fun j => decide (p j ≤ p i))
  let s : ℤ := match stack1 with
    | [] => (i : ℤ) + 1
    | j :: _ => (i : ℤ) - (j : ℤ)
  (i :: stack1, st.2 ++ [s])

/-- The whole span loop over positions 0..n-1. -/
def spanFold (p : ℕ → ℚ) (n : ℕ) : List ℕ × List ℤ :=
  (List.range n).foldl (spanStep p) ([], [])

/-- Span values for a validated price list. -/
def computeSpans (ps : List ℚ) : List ℤ :=
  (spanFold (fun i => ps.getD i 0) ps.length).2

/-- calculateStockSpan (stock_span.c lines 61-117).  prices = none models a
NULL prices pointer, out_spans models whether the output pointer is non-NULL,
alloc_spans / alloc_stack are the two malloc oracles in program order. -/
def calculateStockSpan (prices : Option (List DVal)) (out_spans : Bool)
    (alloc_spans alloc_stack : Bool) : Int × Option (List ℤ) :=
  match prices with
  | none => (-1, none)
  | some ps =>
    if !out_spans then (-1, none)
    else if ps.length = 0 ∨ MAX_ARRAY_SIZE < ps.length then (-2, none)
    else if ¬ ps.all DVal.isFinite then (-4, none)
    else if !alloc_spans then (-3, none)
    else if !alloc_stack then (-3, none)
    else (0, some (computeSpans (ps.map DVal.toRat)))

/-- The specification count from the claim: the number of consecutive
positions ending at i (inclusive) whose price is ≤ price i, scanning
downward from i until the first strictly greater predecessor blocks. -/
def runLen (p : ℕ → ℚ) (i : ℕ) : ℕ :=
  ((List.range (i + 1)).reverse.takeWhile (fun k => decide (p k ≤ p i))).length

/-! ### Span stack invariant and loop proof -/

/-- Invariant on the index stack after the span loop has processed
positions 0..n-1: entries are strictly decreasing from the top, all are
processed positions, and every processed position is dominated by some
stack entry at-or-after it with a price at least as large. -/
def SpanInv (p : ℕ → ℚ) (n : ℕ) (stack : List ℕ) : Prop :=
  stack.Chain' (fun a b => b < a) ∧ (∀ j ∈ stack, j < n) ∧
    (∀ m, m < n → ∃ a ∈ stack, m ≤ a ∧ p m ≤ p a)

theorem spanInv_zero (p : ℕ → ℚ) : SpanInv p 0 [] := by
  refine ⟨List.chain'_nil, ?_, ?_⟩ <;> simp

theorem chain'_gt_pairwise {l : List ℕ} :
    l.Chain' (fun a b => b < a) ↔ l.Pairwise (fun a b => b < a) := by
  have : IsTrans ℕ (fun a b => b < a) := ⟨fun a b c h1 h2 => lt_trans h2 h1⟩
  exact List.chain'_iff_pairwise

theorem dropWhile_mem_of_not_mem_take {α : Type} (pred : α → Bool) (l : List α) (a : α)
    (ha : a ∈ l) (hnt : a ∉ l.takeWhile pred) : a ∈ l.dropWhile pred := by
  have h := List.takeWhile_append_dropWhile (p := pred) (l := l)
  rw [← h] at ha
  rcases List.mem_append.mp ha with h1 | h2
  · exact absurd h1 hnt
  · exact h2

theorem runLen_all (p : ℕ → ℚ) (i : ℕ) (h : ∀ m, m ≤ i → p m ≤ p i) :
    runLen p i = i + 1 := by
  unfold runLen
  rw [List.takeWhile_eq_self_iff.mpr, List.length_reverse, List.length_range]
  intro k hk
  simp only [List.mem_reverse, List.mem_range] at hk
  simpa using h k (Nat.lt_succ_iff.mp hk)

theorem runLen_blocked (p : ℕ → ℚ) (i j : ℕ) (hj : j < i) (hgt : p i < p j)
    (hrun : ∀ m, j < m → m ≤ i → p m ≤ p i) : runLen p i = i - j := by
  unfold runLen
  have hsplit : List.range (i + 1) = List.range (j + 1) ++ List.range' (j + 1) (i - j) := by
    rw [List.range_eq_range', List.range_eq_range']
    have h2 := List.range'_append 0 (j + 1) (i - j) 1
    simp only [one_mul, zero_add] at h2
    rw [h2]
    congr 1
    omega
  rw [hsplit, List.reverse_append]
  have hdesc : ∀ k ∈ (List.range' (j + 1) (i - j)).reverse, (fun k => decide (p k ≤ p i)) k = true := by
    intro k hk
    simp only [List.mem_reverse, List.mem_range'_1] at hk
    simp only [decide_eq_true_eq]
    exact hrun k (by omega) (by omega)
  rw [List.takeWhile_append]
  rw [List.takeWhile_eq_self_iff.mpr hdesc]
  have hj_head : (List.range (j + 1)).reverse = j :: (List.range j).reverse := by
    rw [List.range_succ, List.reverse_append]
    simp
  have hfail : decide (p j ≤ p i) = false := by
    simp only [decide_eq_false_iff_not, not_le]
    exact hgt
  simp [hj_head, List.takeWhile_cons, hfail]

/-- One span-loop step preserves the invariant and emits exactly the
claimed run length. -/
theorem spanStep_spec (p : ℕ → ℚ) (n : ℕ) (s : List ℕ) (acc : List ℤ)
    (hInv : SpanInv p n s) :
    SpanInv p (n + 1) (spanStep p (s, acc) n).1 ∧
      (spanStep p (s, acc) n).2 = acc ++ [(runLen p n : ℤ)] := by
  obtain ⟨hchain, hlt, hdom⟩ := hInv
  set pred : ℕ → Bool := fun j => decide (p j ≤ p n) with hpred
  set d := s.dropWhile pred with hd
  have htake : ∀ a ∈ s.takeWhile pred, p a ≤ p n := by
    intro a ha
    have := List.mem_takeWhile_imp ha
    simpa [hpred] using this
  have hdmem : ∀ a ∈ d, a ∈ s := fun a ha => (List.dropWhile_sublist pred).mem ha
  have hstep : spanStep p (s, acc) n =
      (n :: d, acc ++ [match d with
        | [] => (n : ℤ) + 1
        | j :: _ => (n : ℤ) - (j : ℤ)]) := by
    simp [spanStep, hd, hpred]
  cases hcase : d with
  | nil =>
    have hall : ∀ m, m ≤ n → p m ≤ p n := by
      intro m hm
      rcases Nat.lt_or_ge m n with hmn | hmn
      · obtain ⟨a, has, _, hpa⟩ := hdom m hmn
        have : a ∈ s.takeWhile pred := by
          by_contra hna
          have := dropWhile_mem_of_not_mem_take pred s a has hna
          rw [← hd, hcase] at this
          simp at this
        exact le_trans hpa (htake a this)
      · have : m = n := le_antisymm hm hmn
        simp [this]
    constructor
    · refine ⟨?_, ?_, ?_⟩
      · rw [hstep, hcase]; simp
      · rw [hstep, hcase]; intro j hj; simp at hj; omega
      · rw [hstep, hcase]
        intro m hm
        exact ⟨n, by simp, Nat.lt_succ_iff.mp hm, hall m (Nat.lt_succ_iff.mp hm)⟩
    · rw [hstep, hcase, runLen_all p n hall]
      simp
  | cons j rest =>
    have hjfail : pred j = false := by
      have := List.head?_dropWhile_not pred s
      rw [← hd, hcase] at this
      simpa using this
    have hjgt : p n < p j := by
      simp only [hpred, decide_eq_false_iff_not, not_le] at hjfail
      exact hjfail
    have hjlt : j < n := hlt j (hdmem j (by rw [hcase]; simp))
    have hdpair : d.Pairwise (fun a b => b < a) := by
      have hs := chain'_gt_pairwise.mp hchain
      exact List.Pairwise.sublist (List.dropWhile_sublist pred) hs
    have hrun : ∀ m, j < m → m ≤ n → p m ≤ p n := by
      intro m hjm hmn
      rcases Nat.lt_or_ge m n with hmlt | hmge
      · obtain ⟨a, has, hma, hpa⟩ := hdom m hmlt
        have haj : a ∉ d := by
          intro had
          rw [hcase] at had
          rcases List.mem_cons.mp had with h1 | h2
          · omega
          · have : a < j := by
              rw [hcase] at hdpair
              exact List.rel_of_pairwise_cons hdpair h2
            omega
        have : a ∈ s.takeWhile pred := by
          by_contra hna
          exact haj (dropWhile_mem_of_not_mem_take pred s a has hna)
        exact le_trans hpa (htake a this)
      · have : m = n := le_antisymm hmn hmge
        simp [this]
    constructor
    · refine ⟨?_, ?_, ?_⟩
      · rw [hstep, hcase]
        rw [chain'_gt_pairwise]
        refine List.pairwise_cons.mpr ⟨?_, by rw [hcase] at hdpair; exact hdpair⟩
        intro b hb
        have : b ∈ s := hdmem b (by rw [hcase]; exact hb)
        exact hlt b this
      · rw [hstep]
        intro a ha
        rcases List.mem_cons.mp ha with h1 | h2
        · omega
        · have := hlt a (hdmem a h2)
          omega
      · rw [hstep]
        intro m hm
        rcases Nat.lt_or_ge m n with hmlt | hmge
        · obtain ⟨a, has, hma, hpa⟩ := hdom m hmlt
          by_cases had : a ∈ d
          · exact ⟨a, List.mem_cons_of_mem n had, hma, hpa⟩
          · have : a ∈ s.takeWhile pred :=
              by_contra fun hna => had (dropWhile_mem_of_not_mem_take pred s a has hna)
            exact ⟨n, List.mem_cons_self n d, by omega, le_trans hpa (htake a this)⟩
        · have : m = n := by omega
          exact ⟨n, List.mem_cons_self n d, by omega, by simp [this]⟩
    · rw [hstep, hcase, runLen_blocked p n j hjlt hjgt hrun]
      have : ((n - j : ℕ) : ℤ) = (n : ℤ) - (j : ℤ) := by omega
      rw [this]

/-- The span loop satisfies its invariant and emits runLen at every
position. -/
theorem spanFold_spec (p : ℕ → ℚ) (n : ℕ) :
    SpanInv p n (spanFold p n).1 ∧
      (spanFold p n).2 = (List.range n).map (fun i => (runLen p i : ℤ)) := by
  induction n with
  | zero => exact ⟨spanInv_zero p, by simp [spanFold]⟩
  | succ n ih =>
    have hunfold : spanFold p (n + 1) = spanStep p (spanFold p n) n := by
      unfold spanFold
      rw [List.range_succ, List.foldl_append]
      simp
    obtain ⟨hInv, hout⟩ := ih
    have := spanStep_spec p n (spanFold p n).1 (spanFold p n).2 hInv
    rw [hunfold]
    refine ⟨this.1, ?_⟩
    rw [this.2, hout, List.range_succ]
    simp

theorem computeSpans_length (ps : List ℚ) : (computeSpans ps).length = ps.length := by
  unfold computeSpans
  rw [(spanFold_spec (fun i => ps.getD i 0) ps.length).2]
  simp

theorem computeSpans_getD (ps : List ℚ) (i : ℕ) (hi : i < ps.length) :
    (computeSpans ps).getD i 0 = (runLen (fun k => ps.getD k 0) i : ℤ) := by
  unfold computeSpans
  rw [(spanFold_spec (fun i => ps.getD i 0) ps.length).2]
  rw [List.getD_eq_getElem _ _ (by simpa using hi)]
  simp

/-- C2: for every valid price sequence (all elements finite, length between 1
and the maximum) calculateStockSpan returns status 0 and span i equals the
number of consecutive positions ending at i (inclusive) whose price is ≤
price i (the run blocked by the nearest strictly greater predecessor, equal
prices counted into the run); in particular prices
[100, 80, 60, 70, 60, 75, 85] yield spans [1, 1, 1, 2, 1, 4, 6]. -/
theorem c2_stock_span_correct :
    (∀ ps : List DVal, ps.all DVal.isFinite → 1 ≤ ps.length →
      ps.length ≤ MAX_ARRAY_SIZE →
      ∃ spans : List ℤ,
        calculateStockSpan (some ps) true true true = (0, some spans) ∧
        spans.length = ps.length ∧
        (∀ i, i < ps.length →
          spans.getD i 0 = (runLen (fun k => (ps.map DVal.toRat).getD k 0) i : ℤ))) ∧
    calculateStockSpan
        (some ([100, 80, 60, 70, 60, 75, 85].map DVal.fin)) true true true
      = (0, some [1, 1, 1, 2, 1, 4, 6]) := by
  constructor
  · intro ps hfin hlen hmax
    refine ⟨computeSpans (ps.map DVal.toRat), ?_, ?_, ?_⟩
    · simp only [calculateStockSpan]
      rw [if_neg (by simp), if_neg (by omega), if_neg (by simp [hfin]),
        if_neg (by simp), if_neg (by simp)]
    · exact (computeSpans_length _).trans (by simp)
    · intro i hi
      exact computeSpans_getD (ps.map DVal.toRat) i (by simpa using hi)
  · decide

/-- Witness for c2_stock_span_correct: the concrete 7-element sequence from
the specification satisfies the hypotheses and the conclusion. -/
theorem c2_stock_span_correct_witness :
    (([100, 80, 60, 70, 60, 75, 85].map DVal.fin).all DVal.isFinite) ∧
      (∃ spans : List ℤ,
        calculateStockSpan (some ([100, 80, 60, 70, 60, 75, 85].map DVal.fin))
            true true true = (0, some spans) ∧
        spans.length = ([100, 80, 60, 70, 60, 75, 85].map DVal.fin).length ∧
        (∀ i, i < ([100, 80, 60, 70, 60, 75, 85].map DVal.fin).length →
          spans.getD i 0 =
            (runLen (fun k =>
              (([100, 80, 60, 70, 60, 75, 85].map DVal.fin).map DVal.toRat).getD k 0) i : ℤ))) :=
  ⟨by decide, c2_stock_span_correct.1 _ (by decide) (by decide) (by decide)⟩

/-! ## RangeAggregationTree: src/c_modules/src/segment_tree.c -/

/-- TreeNode (segment_tree.c lines 11-17): aggregate statistics of a range. -/
structure TreeNode where
  min : ℚ
  max : ℚ
  sum : ℚ
  sum_sq : ℚ
  count : ℕ
deriving DecidableEq, Repr

instance : Inhabited TreeNode := ⟨⟨0, 0, 0, 0, 0⟩⟩

/-- mergeNodes (segment_tree.c lines 33-41), the C ternaries kept as written. -/
def mergeNodes (l r : TreeNode) : TreeNode :=
  { min := if l.min < r.min then l.min else r.min
    max := if r.max < l.max then l.max else r.max
    sum := l.sum + r.sum
    sum_sq := l.sum_sq + r.sum_sq
    count := l.count + r.count }

/-- Aggregate node of a single leaf (segment_tree.c lines 83-90). -/
def leafNode (x : ℚ) : TreeNode := ⟨x, x, x, x * x, 1⟩

theorem mergeNodes_eq (l r : TreeNode) :
    mergeNodes l r =
      ⟨min l.min r.min, max l.max r.max, l.sum + r.sum, l.sum_sq + r.sum_sq,
        l.count + r.count⟩ := by
  unfold mergeNodes
  congr 1
  · by_cases h : l.min < r.min
    · simp [h, min_eq_left h.le]
    · simp [h, min_eq_right (not_lt.mp h)]
  · by_cases h : r.max < l.max
    · simp [h, max_eq_left h.le]
    · simp [h, max_eq_right (not_lt.mp h)]

theorem mergeNodes_assoc (a b c : TreeNode) :
    mergeNodes (mergeNodes a b) c = mergeNodes a (mergeNodes b c) := by
  simp [mergeNodes_eq, min_assoc, max_assoc, add_assoc]

theorem mergeNodes_comm (a b : TreeNode) : mergeNodes a b = mergeNodes b a := by
  rw [mergeNodes_eq, mergeNodes_eq, min_comm, max_comm, add_comm, add_comm a.sum_sq,
    add_comm a.count]

/-- The leaf-initialization loop (segment_tree.c lines 83-90): leaf i of the
sequence is stored at array index length + i. -/
def leafFill (ps : List ℚ) (a : Array TreeNode) : Array TreeNode :=
  (List.range ps.length).foldl
    (fun acc i => acc.setD (ps.length + i) (leafNode (ps.getD i 0))) a

/-- The internal-node loop (segment_tree.c lines 93-95): for i from
length-1 down to 1, node i is the merge of nodes 2i and 2i+1.
fillDown a k processes indices k, k-1, ..., 1. -/
def fillDown (a : Array TreeNode) : ℕ → Array TreeNode
  | 0 => a
  | i + 1 =>
    fillDown
      (a.setD (i + 1)
        (mergeNodes (a.getD (2 * (i + 1)) default) (a.getD (2 * (i + 1) + 1) default))) i

/-- buildSegmentTree's node array: 2·n slots, leaves filled from the prices,
internal nodes merged bottom-up. -/
def buildNodes (ps : List ℚ) : Array TreeNode :=
  fillDown (leafFill ps (Array.mkArray (2 * ps.length) default)) (ps.length - 1)

/-- The SegmentTree struct (segment_tree.c lines 19-23). -/
structure SegTree where
  nodes : Array TreeNode
  length : ℕ
  tree_size : ℕ

/-- buildSegmentTree (segment_tree.c lines 43-99). -/
def buildSegmentTree (prices : Option (List DVal)) (out_handle : Bool)
    (alloc_tree alloc_nodes : Bool) : Int × Option SegTree :=
  match prices with
  | none => (-1, none)
  | some ps =>
    if !out_handle then (-1, none)
    else if ps.length = 0 ∨ MAX_ARRAY_SIZE < ps.length then (-2, none)
    else if ¬ ps.all DVal.isFinite then (-4, none)
    else if !alloc_tree then (-3, none)
    else if !alloc_nodes then (-3, none)
    else (0, some ⟨buildNodes (ps.map DVal.toRat), ps.length, 2 * ps.length⟩)

theorem setD_of_lt {α : Type} (a : Array α) (i : ℕ) (v : α) (h : i < a.size) :
    a.setD i v = a.set ⟨i, h⟩ v := dif_pos h

theorem setD_of_ge {α : Type} (a : Array α) (i : ℕ) (v : α) (h : ¬ i < a.size) :
    a.setD i v = a := dif_neg h

theorem setD_getD {α : Type} (a : Array α) (i j : ℕ) (v d : α) :
    (a.setD i v).getD j d = if j = i ∧ i < a.size then v else a.getD j d := by
  by_cases hi : i < a.size
  · rw [setD_of_lt a i v hi]
    by_cases hij : j = i
    · subst hij
      rw [if_pos ⟨rfl, hi⟩, Array.getD, dif_pos (by simpa using hi)]
      simp
    · rw [if_neg (by tauto), Array.getD, Array.getD]
      by_cases hj : j < a.size
      · rw [dif_pos (by simpa using hj), dif_pos hj]
        exact Array.get_set_ne a ⟨i, hi⟩ v hj (by simpa using Ne.symm hij)
      · rw [dif_neg (by simpa using hj), dif_neg hj]
  · rw [setD_of_ge a i v hi, if_neg (by tauto)]

theorem leafFill_aux (ps : List ℚ) (m : ℕ) (a : Array TreeNode)
    (ha : ps.length + m ≤ a.size) :
    ((List.range m).foldl
        (fun acc i => acc.setD (ps.length + i) (leafNode (ps.getD i 0))) a).size = a.size ∧
    ∀ k d, ((List.range m).foldl
        (fun acc i => acc.setD (ps.length + i) (leafNode (ps.getD i 0))) a).getD k d =
      if ps.length ≤ k ∧ k < ps.length + m then leafNode (ps.getD (k - ps.length) 0)
      else a.getD k d := by
  induction m with
  | zero =>
    refine ⟨rfl, ?_⟩
    intro k d
    simp only [List.range_zero, List.foldl_nil]
    rw [if_neg (by omega)]
  | succ m ih =>
    obtain ⟨ihsz, ihget⟩ := ih (by omega)
    rw [List.range_succ, List.foldl_append]
    simp only [List.foldl_cons, List.foldl_nil]
    refine ⟨by rw [Array.size_setD, ihsz], ?_⟩
    intro k d
    rw [setD_getD, ihsz]
    by_cases hk : k = ps.length + m ∧ ps.length + m < a.size
    · rw [if_pos hk, if_pos (by omega)]
      have : k - ps.length = m := by omega
      rw [this]
    · rw [if_neg hk, ihget]
      have hm : ps.length + m < a.size := by omega
      by_cases hin : ps.length ≤ k ∧ k < ps.length + m
      · rw [if_pos hin, if_pos (by omega)]
      · rw [if_neg hin, if_neg (by omega)]

theorem fillDown_size (a : Array TreeNode) (k : ℕ) : (fillDown a k).size = a.size := by
  induction k generalizing a with
  | zero => rfl
  | succ k ih => rw [fillDown, ih, Array.size_setD]

theorem fillDown_getD_high (a : Array TreeNode) (k j : ℕ) (h : k < j ∨ j = 0)
    (d : TreeNode) : (fillDown a k).getD j d = a.getD j d := by
  induction k generalizing a with
  | zero => rfl
  | succ k ih =>
    rw [fillDown, ih _ (by omega), setD_getD, if_neg (by omega)]

theorem fillDown_merge (n : ℕ) (a : Array TreeNode) (hsz : a.size = 2 * n) (k : ℕ)
    (hk : k < n) :
    ∀ j, 1 ≤ j → j ≤ k →
      (fillDown a k).getD j default =
        mergeNodes ((fillDown a k).getD (2 * j) default)
          ((fillDown a k).getD (2 * j + 1) default) := by
  induction k generalizing a with
  | zero => intro j h1 h2; omega
  | succ k ih =>
    intro j h1 h2
    rw [fillDown]
    set a' := a.setD (k + 1)
      (mergeNodes (a.getD (2 * (k + 1)) default) (a.getD (2 * (k + 1) + 1) default)) with ha'
    have hsz' : a'.size = 2 * n := by rw [ha', Array.size_setD, hsz]
    rcases Nat.lt_or_ge j (k + 1) with hj | hj
    · exact ih a' hsz' (by omega) j h1 (by omega)
    · have hjk : j = k + 1 := by omega
      subst hjk
      rw [fillDown_getD_high a' k (k + 1) (by omega) default,
        fillDown_getD_high a' k (2 * (k + 1)) (by omega) default,
        fillDown_getD_high a' k (2 * (k + 1) + 1) (by omega) default]
      rw [ha', setD_getD, setD_getD, setD_getD]
      rw [if_pos ⟨rfl, by omega⟩, if_neg (by omega), if_neg (by omega)]

theorem leafFill_mk_size (ps : List ℚ) :
    (leafFill ps (Array.mkArray (2 * ps.length) default)).size = 2 * ps.length := by
  unfold leafFill
  rw [(leafFill_aux ps ps.length (Array.mkArray (2 * ps.length) default) (by simp; omega)).1]
  simp

theorem buildNodes_size (ps : List ℚ) : (buildNodes ps).size = 2 * ps.length := by
  unfold buildNodes
  rw [fillDown_size, leafFill_mk_size]

theorem buildNodes_leaf (ps : List ℚ) (i : ℕ) (hi : i < ps.length) :
    (buildNodes ps).getD (ps.length + i) default = leafNode (ps.getD i 0) := by
  unfold buildNodes leafFill
  rw [fillDown_getD_high _ _ _ (by omega) default,
    (leafFill_aux ps ps.length (Array.mkArray (2 * ps.length) default) (by simp; omega)).2,
    if_pos (by omega)]
  have h : ps.length + i - ps.length = i := by omega
  rw [h]

theorem buildNodes_internal (ps : List ℚ) (j : ℕ) (h1 : 1 ≤ j) (h2 : j < ps.length) :
    (buildNodes ps).getD j default =
      mergeNodes ((buildNodes ps).getD (2 * j) default)
        ((buildNodes ps).getD (2 * j + 1) default) := by
  unfold buildNodes
  exact fillDown_merge ps.length _ (leafFill_mk_size ps) (ps.length - 1) (by omega) j h1
    (by omega)

/-- Inversion of a successful buildSegmentTree call. -/
theorem buildSegmentTree_success {prices : Option (List DVal)} {oh a1 a2 : Bool}
    {t : SegTree} (h : buildSegmentTree prices oh a1 a2 = (0, some t)) :
    ∃ ps, prices = some ps ∧
      t = ⟨buildNodes (ps.map DVal.toRat), ps.length, 2 * ps.length⟩ := by
  match prices with
  | none => simp [buildSegmentTree] at h
  | some ps =>
    refine ⟨ps, rfl, ?_⟩
    simp only [buildSegmentTree] at h
    by_cases c1 : (!oh) = true
    · rw [if_pos c1] at h; exact absurd h (by simp)
    · rw [if_neg c1] at h
      by_cases c2 : ps.length = 0 ∨ MAX_ARRAY_SIZE < ps.length
      · rw [if_pos c2] at h; exact absurd h (by simp)
      · rw [if_neg c2] at h
        by_cases c3 : ¬ ps.all DVal.isFinite
        · rw [if_pos c3] at h; exact absurd h (by simp)
        · rw [if_neg c3] at h
          by_cases c4 : (!a1) = true
          · rw [if_pos c4] at h; exact absurd h (by simp)
          · rw [if_neg c4] at h
            by_cases c5 : (!a2) = true
            · rw [if_pos c5] at h; exact absurd h (by simp)
            · rw [if_neg c5] at h
              simp only [Prod.mk.injEq] at h
              exact (Option.some.inj h.2).symm

/-- C5: for every successfully built tree over a price sequence of length n
the node array has exactly 2·n entries, leaf i is stored at array index
n + i with min = max = sum = price i, sumOfSquares = price i squared and
count 1, and every internal index k with 1 ≤ k < n stores the componentwise
merge of nodes 2k and 2k+1. -/
theorem c5_tree_layout (prices : Option (List DVal)) (oh a1 a2 : Bool) (ps : List DVal)
    (t : SegTree) (hps : prices = some ps)
    (h : buildSegmentTree prices oh a1 a2 = (0, some t)) :
    t.nodes.size = 2 * ps.length ∧ t.tree_size = 2 * ps.length ∧
    t.length = ps.length ∧
    (∀ i, i < ps.length →
      t.nodes.getD (ps.length + i) default =
        ⟨(ps.map DVal.toRat).getD i 0, (ps.map DVal.toRat).getD i 0,
          (ps.map DVal.toRat).getD i 0,
          (ps.map DVal.toRat).getD i 0 * (ps.map DVal.toRat).getD i 0, 1⟩) ∧
    (∀ k, 1 ≤ k → k < ps.length →
      t.nodes.getD k default =
        mergeNodes (t.nodes.getD (2 * k) default) (t.nodes.getD (2 * k + 1) default)) := by
  obtain ⟨ps', hps', ht⟩ := buildSegmentTree_success h
  rw [hps] at hps'
  obtain rfl : ps = ps' := by injection hps'
  subst ht
  refine ⟨?_, rfl, rfl, ?_, ?_⟩
  · rw [buildNodes_size]; simp
  · intro i hi
    have := buildNodes_leaf (ps.map DVal.toRat) i (by simpa using hi)
    simp only [List.length_map] at this ⊢
    rw [this]
    rfl
  · intro k hk1 hk2
    exact buildNodes_internal (ps.map DVal.toRat) k hk1 (by simpa using hk2)

/-- Witness for c5_tree_layout at a concrete three-element sequence. -/
theorem c5_tree_layout_witness :
    (some [DVal.fin 1, DVal.fin 2, DVal.fin 3] = some [DVal.fin 1, DVal.fin 2, DVal.fin 3]) ∧
    (buildSegmentTree (some [DVal.fin 1, DVal.fin 2, DVal.fin 3]) true true true
        = (0, some ⟨buildNodes [1, 2, 3], 3, 6⟩)) ∧
    (buildSegmentTree (some [DVal.fin 1, DVal.fin 2, DVal.fin 3]) true true true
          = (0, some ⟨buildNodes [1, 2, 3], 3, 6⟩) →
      (SegTree.mk (buildNodes [1, 2, 3]) 3 6).nodes.size
        = 2 * ([DVal.fin 1, DVal.fin 2, DVal.fin 3] : List DVal).length) := by
  refine ⟨rfl, rfl, fun h => ?_⟩
  exact (c5_tree_layout _ true true true _ _ rfl h).1

/-! ### Bottom-up range query (segment_tree.c lines 101-176) -/

/-- DBL_MAX as an exact rational: the accumulator seeds of
segment_tree.c lines 122-124. -/
def dblMax : ℚ := 2 ^ 1024 - 2 ^ 971

/-- Query accumulator together with its first flag
(segment_tree.c lines 122-129). -/
structure QAcc where
  first : Bool
  node : TreeNode

def initAcc : QAcc := ⟨true, ⟨dblMax, -dblMax, 0, 0, 0⟩⟩

/-- Absorbing one tree node into the accumulator: the first/merge branch
pattern of segment_tree.c lines 135-139 (and 146-151). -/
def absorb (acc : QAcc) (t : TreeNode) : QAcc :=
  if acc.first then ⟨false, t⟩ else ⟨false, mergeNodes acc.node t⟩

/-- The bottom-up query loop (segment_tree.c lines 132-157).  The C guard
is left ≤ right; every state this loop is entered on from querySegmentTree
has 1 ≤ left (left starts at ql + n with n ≥ 1 and stays ≥ 1), and the
extra conjunct, needed only for termination of the recursion, does not
change the function on those states. -/
def queryLoop (nodes : ℕ → TreeNode) (left right : ℕ) (acc : QAcc) : QAcc :=
  if h : 1 ≤ left ∧ left ≤ right then
    let acc1 := if left % 2 = 1 then absorb acc (nodes left) else acc
    let l := if left % 2 = 1 then left + 1 else left
    let acc2 := if right % 2 = 0 then absorb acc1 (nodes right) else acc1
    let r := if right % 2 = 0 then right - 1 else right
    queryLoop nodes (l / 2) (r / 2) acc2
  else acc
termination_by right
decreasing_by
  split <;> omega

/-- Outputs of a query, one Option slot per C output pointer: none models
a NULL pointer that the function does not write through. -/
structure QueryOut where
  min? : Option ℚ
  max? : Option ℚ
  avg? : Option ℚ
  variance? : Option ℚ
deriving DecidableEq, Repr

def noOut : QueryOut := ⟨none, none, none, none⟩

/-- querySegmentTree (segment_tree.c lines 101-176): validation, the
bottom-up loop, then the derived outputs written only through the supplied
pointers. -/
def querySegmentTree (tree : Option SegTree) (ql qr : ℕ)
    (out_min out_max out_avg out_var : Bool) : Int × QueryOut :=
  match tree with
  | none => (-1, noOut)
  | some t =>
    if qr < ql ∨ t.length ≤ qr then (-2, noOut)
    else
      let res := (queryLoop (fun k => t.nodes.getD k default)
        (ql + t.length) (qr + t.length) initAcc).node
      (0,
        ⟨if out_min then some res.min else none,
         if out_max then some res.max else none,
         if out_avg then some (if 0 < res.count then res.sum / (res.count : ℚ) else 0)
           else none,
         if out_var then
           some (if 0 < res.count then
             res.sum_sq / (res.count : ℚ) -
               (res.sum / (res.count : ℚ)) * (res.sum / (res.count : ℚ))
           else 0)
         else none⟩)

/-- Leaf positions of the original sequence lying under tree node k
(k = 0 and k ≥ 2n are outside the tree and are never read by a query on a
valid range). -/
def cover (n : ℕ) (k : ℕ) : List ℕ :=
  if _h1 : k = 0 ∨ 2 * n ≤ k then []
  else if _h2 : n ≤ k then [k - n]
  else cover n (2 * k) ++ cover n (2 * k + 1)
termination_by 2 * n - k
decreasing_by all_goals omega

theorem cover_leaf (n k : ℕ) (h1 : n ≤ k) (h2 : k < 2 * n) : cover n k = [k - n] := by
  rw [cover, dif_neg (by omega), dif_pos h1]

theorem cover_internal (n k : ℕ) (h1 : 1 ≤ k) (h2 : k < n) :
    cover n k = cover n (2 * k) ++ cover n (2 * k + 1) := by
  rw [cover, dif_neg (by omega), dif_neg (by omega)]

/-- Leaf positions covered by the consecutive tree nodes left..right. -/
def coverRange (n l r : ℕ) : List ℕ := (List.range' l (r + 1 - l)).flatMap (cover n)

theorem coverRange_empty (n l r : ℕ) (h : r < l) : coverRange n l r = [] := by
  unfold coverRange
  rw [show r + 1 - l = 0 by omega]
  rfl

theorem coverRange_cons (n l r : ℕ) (h : l ≤ r) :
    coverRange n l r = cover n l ++ coverRange n (l + 1) r := by
  unfold coverRange
  rw [show r + 1 - l = (r + 1 - (l + 1)) + 1 by omega, List.range'_succ,
    List.flatMap_cons]

theorem coverRange_concat (n l r : ℕ) (h : l ≤ r) (hr : 1 ≤ r) :
    coverRange n l r = coverRange n l (r - 1) ++ cover n r := by
  unfold coverRange
  have hlen : r - 1 + 1 - l = r - l := by omega
  rw [hlen]
  have hsplit : List.range' l (r + 1 - l) = List.range' l (r - l) ++ [r] := by
    have h2 := List.range'_append l (r - l) 1 1
    simp only [one_mul, List.range'_one] at h2
    rw [show l + (r - l) = r by omega] at h2
    rw [show r + 1 - l = 1 + (r - l) by omega]
    exact h2.symm
  rw [hsplit, List.flatMap_append, List.flatMap_cons, List.flatMap_nil, List.append_nil]

/-- Stepping one level up: when l is even, r odd and every parent index in
l/2..r/2 is an internal node, the parents cover exactly the same leaves. -/
theorem coverRange_parent_aux (n : ℕ) :
    ∀ m a, 1 ≤ a → a + m ≤ n →
      (List.range' a m).flatMap (cover n) = (List.range' (2 * a) (2 * m)).flatMap (cover n) := by
  intro m
  induction m with
  | zero => intro a _ _; rfl
  | succ m ih =>
    intro a ha ham
    rw [List.range'_succ, List.flatMap_cons,
      cover_internal n a ha (by omega),
      show 2 * (m + 1) = (2 * m) + 1 + 1 by ring, List.range'_succ, List.range'_succ,
      List.flatMap_cons, List.flatMap_cons]
    rw [show 2 * a + 1 + 1 = 2 * (a + 1) by ring, ih (a + 1) (by omega) (by omega)]
    simp [List.append_assoc]

theorem coverRange_parent (n l r : ℕ) (hl : 2 ≤ l) (hlr : l ≤ r) (hr : r < 2 * n)
    (hle : l % 2 = 0) (hro : r % 2 = 1) :
    coverRange n (l / 2) (r / 2) = coverRange n l r := by
  unfold coverRange
  have h2a : 2 * (l / 2) = l := by omega
  have h2m : 2 * (r / 2 + 1 - l / 2) = r + 1 - l := by omega
  have := coverRange_parent_aux n (r / 2 + 1 - l / 2) (l / 2) (by omega) (by omega)
  rw [h2a, h2m] at this
  exact this

/-! ### Aggregation algebra on Option TreeNode -/

instance : Std.Associative mergeNodes := ⟨mergeNodes_assoc⟩

/-- Merge into an optional accumulator (none plays the first-flag role). -/
def mergeO (o : Option TreeNode) (t : TreeNode) : Option TreeNode :=
  some (match o with | none => t | some a => mergeNodes a t)

/-- Aggregate of a list of tree nodes, none for the empty list. -/
def aggO (ts : List TreeNode) : Option TreeNode := ts.foldl mergeO none

theorem foldl_mergeO_some (ts : List TreeNode) (a : TreeNode) :
    ts.foldl mergeO (some a) = some (ts.foldl mergeNodes a) := by
  induction ts generalizing a with
  | nil => rfl
  | cons t ts ih => rw [List.foldl_cons, List.foldl_cons, mergeO, ih]

/-- Combination of two optional aggregates. -/
def oMerge : Option TreeNode → Option TreeNode → Option TreeNode
  | none, o => o
  | some a, none => some a
  | some a, some b => some (mergeNodes a b)

theorem aggO_append (l1 l2 : List TreeNode) :
    aggO (l1 ++ l2) = oMerge (aggO l1) (aggO l2) := by
  cases l1 with
  | nil => rfl
  | cons x xs =>
    rw [aggO, List.cons_append, List.foldl_cons]
    rw [show mergeO none x = some x from rfl, foldl_mergeO_some, aggO, List.foldl_cons,
      show mergeO none x = some x from rfl, foldl_mergeO_some]
    cases l2 with
    | nil => simp [aggO, oMerge]
    | cons y ys =>
      rw [List.foldl_append, List.foldl_cons]
      rw [aggO, List.foldl_cons, show mergeO none y = some y from rfl, foldl_mergeO_some]
      rw [oMerge]
      congr 1
      exact List.foldl_assoc

instance : RightCommutative mergeO := by
  constructor
  intro o a b
  cases o with
  | none => simp [mergeO, mergeNodes_comm]
  | some c => simp [mergeO, mergeNodes_assoc, mergeNodes_comm b a]

theorem aggO_perm (l1 l2 : List TreeNode) (h : l1.Perm l2) : aggO l1 = aggO l2 :=
  List.Perm.foldl_eq h none

/-! ### The query loop tiles the range exactly -/

theorem queryLoop_step (nodes : ℕ → TreeNode) (left right : ℕ) (acc : QAcc)
    (h1 : 1 ≤ left) (h2 : left ≤ right) :
    queryLoop nodes left right acc =
      queryLoop nodes ((if left % 2 = 1 then left + 1 else left) / 2)
        ((if right % 2 = 0 then right - 1 else right) / 2)
        (if right % 2 = 0
          then absorb (if left % 2 = 1 then absorb acc (nodes left) else acc) (nodes right)
          else (if left % 2 = 1 then absorb acc (nodes left) else acc)) := by
  rw [queryLoop, dif_pos ⟨h1, h2⟩]

theorem perm_mid (A B X Y : List ℕ) (h : X.Perm Y) :
    ((A ++ B) ++ X).Perm (A ++ (Y ++ B)) := by
  rw [List.append_assoc]
  refine List.Perm.append_left A ?_
  exact ((List.perm_append_comm).trans (List.Perm.append_right B h)).trans
    (List.Perm.refl _)

theorem perm_swap_right (B X Y : List ℕ) (h : X.Perm Y) : (B ++ X).Perm (Y ++ B) :=
  (List.perm_append_comm).trans (List.Perm.append_right B h)

/-- The query loop equals a fold of absorb over a list of visited tree
nodes whose covers are a permutation of the leaves tiling left..right. -/
theorem queryLoop_sel (nodes : ℕ → TreeNode) (n : ℕ) :
    ∀ right left acc, 1 ≤ left → right < 2 * n →
      ∃ sel : List ℕ,
        queryLoop nodes left right acc =
          sel.foldl (fun a k => absorb a (nodes k)) acc ∧
        (sel.flatMap (cover n)).Perm (coverRange n left right) ∧
        ∀ k ∈ sel, 1 ≤ k ∧ k < 2 * n := by
  intro right
  induction right using Nat.strong_induction_on with
  | _ right ih =>
    intro left acc hleft hright
    by_cases hguard : left ≤ right
    case neg =>
      refine ⟨[], ?_, ?_, by simp⟩
      · rw [queryLoop, dif_neg (by tauto)]
        rfl
      · rw [coverRange_empty n left right (by omega), List.flatMap_nil]
    case pos =>
      have hstep := queryLoop_step nodes left right acc hleft hguard
      set l1 := if left % 2 = 1 then left + 1 else left with hl1
      set r1 := if right % 2 = 0 then right - 1 else right with hr1
      set acc2 := if right % 2 = 0
        then absorb (if left % 2 = 1 then absorb acc (nodes left) else acc) (nodes right)
        else (if left % 2 = 1 then absorb acc (nodes left) else acc) with hacc2
      have hl1e : l1 % 2 = 0 := by
        rcases Nat.mod_two_eq_zero_or_one left with h | h <;> simp [hl1, h] <;> omega
      have hr1o : r1 % 2 = 1 := by
        rcases Nat.mod_two_eq_zero_or_one right with h | h <;> simp [hr1, h] <;> omega
      have hl1ge : 2 ≤ l1 := by
        rcases Nat.mod_two_eq_zero_or_one left with h | h <;> simp [hl1, h] <;> omega
      have hr1lt : r1 ≤ right := by
        rcases Nat.mod_two_eq_zero_or_one right with h | h <;> simp [hr1, h] <;> omega
      have hrpos : 0 < right := lt_of_lt_of_le one_pos (le_trans hleft hguard)
      have hmeas : r1 / 2 < right :=
        lt_of_le_of_lt (Nat.div_le_div_right hr1lt) (Nat.div_lt_self hrpos one_lt_two)
      have hbound : r1 / 2 < 2 * n :=
        lt_of_le_of_lt (le_trans (Nat.div_le_self r1 2) hr1lt) hright
      have hl2ge : 1 ≤ l1 / 2 := by
        rw [Nat.le_div_iff_mul_le two_pos, one_mul]
        exact hl1ge
      obtain ⟨sel_rec, hfold, hperm, hbnd⟩ := ih (r1 / 2) hmeas (l1 / 2) acc2 hl2ge hbound
      set selHead := (if left % 2 = 1 then [left] else []) ++
        (if right % 2 = 0 then [right] else []) with hsel
      refine ⟨selHead ++ sel_rec, ?_, ?_, ?_⟩
      · rw [hstep, hfold, List.foldl_append]
        congr 1
        rcases Nat.mod_two_eq_zero_or_one left with hL | hL <;>
          rcases Nat.mod_two_eq_zero_or_one right with hR | hR <;>
            simp [hsel, hacc2, hL, hR]
      · rw [List.flatMap_append]
        by_cases hle : l1 ≤ r1
        case pos =>
          have hparent : coverRange n (l1 / 2) (r1 / 2) = coverRange n l1 r1 :=
            coverRange_parent n l1 r1 hl1ge hle (lt_of_le_of_lt hr1lt hright) hl1e hr1o
          rw [hparent] at hperm
          rcases Nat.mod_two_eq_zero_or_one left with hL | hL <;>
            rcases Nat.mod_two_eq_zero_or_one right with hR | hR
          · -- left even, right even: selHead = [right], l1 = left, r1 = right - 1
            have hform : l1 = left ∧ r1 = right - 1 := by
              constructor <;> simp [hl1, hr1, hL, hR]
            have hlr : left < right := by omega
            have e1 : coverRange n left right = coverRange n left (right - 1) ++ cover n right :=
              coverRange_concat n left right hguard (by omega)
            have e2 : selHead.flatMap (cover n) = cover n right := by
              simp [hsel, hL, hR]
            rw [e2, e1]
            rw [hform.1, hform.2] at hperm
            exact perm_swap_right (cover n right) _ _ hperm
          · -- left even, right odd: selHead = [], l1 = left, r1 = right
            have hform : l1 = left ∧ r1 = right := by
              constructor <;> simp [hl1, hr1, hL, hR]
            have e2 : selHead.flatMap (cover n) = [] := by simp [hsel, hL, hR]
            rw [e2, List.nil_append]
            rw [hform.1, hform.2] at hperm
            exact hperm
          · -- left odd, right even: selHead = [left, right]
            have hform : l1 = left + 1 ∧ r1 = right - 1 := by
              constructor <;> simp [hl1, hr1, hL, hR]
            have hlr : left < right := by omega
            have hlr2 : left + 1 ≤ right - 1 := by omega
            have e1 : coverRange n left right = cover n left ++ coverRange n (left + 1) right :=
              coverRange_cons n left right hguard
            have e3 : coverRange n (left + 1) right =
                coverRange n (left + 1) (right - 1) ++ cover n right :=
              coverRange_concat n (left + 1) right (by omega) (by omega)
            have e2 : selHead.flatMap (cover n) = cover n left ++ cover n right := by
              simp [hsel, hL, hR]
            rw [e2, e1, e3]
            rw [hform.1, hform.2] at hperm
            exact perm_mid (cover n left) (cover n right) _ _ hperm
          · -- left odd, right odd: selHead = [left], l1 = left + 1, r1 = right
            have hform : l1 = left + 1 ∧ r1 = right := by
              constructor <;> simp [hl1, hr1, hL, hR]
            have hlr : left < right := by omega
            have e1 : coverRange n left right = cover n left ++ coverRange n (left + 1) right :=
              coverRange_cons n left right hguard
            have e2 : selHead.flatMap (cover n) = cover n left := by simp [hsel, hL, hR]
            rw [e2, e1]
            rw [hform.1, hform.2] at hperm
            exact List.Perm.append_left (cover n left) hperm
        case neg =>
          -- the recursive range is empty: l1 / 2 > r1 / 2
          have hempty : coverRange n (l1 / 2) (r1 / 2) = [] := by
            refine coverRange_empty n (l1 / 2) (r1 / 2) ?_
            omega
          rw [hempty] at hperm
          have hnil : sel_rec.flatMap (cover n) = [] := List.Perm.eq_nil hperm
          rw [hnil, List.append_nil]
          rcases Nat.mod_two_eq_zero_or_one left with hL | hL <;>
            rcases Nat.mod_two_eq_zero_or_one right with hR | hR
          · -- left even, right even, l1 = left > r1 = right - 1 forces left = right
            have hform : l1 = left ∧ r1 = right - 1 := by
              constructor <;> simp [hl1, hr1, hL, hR]
            have hlr : left = right := by omega
            subst hlr
            have e2 : selHead.flatMap (cover n) = cover n left := by
              simp [hsel, hL, hR]
            rw [e2, coverRange_cons n left left le_rfl,
              coverRange_empty n (left + 1) left (by omega), List.append_nil]
          · -- left even, right odd: l1 = left ≤ right = r1, contradiction
            have hform : l1 = left ∧ r1 = right := by
              constructor <;> simp [hl1, hr1, hL, hR]
            omega
          · -- left odd, right even: forces right = left + 1
            have hform : l1 = left + 1 ∧ r1 = right - 1 := by
              constructor <;> simp [hl1, hr1, hL, hR]
            have hlr : right = left + 1 := by omega
            subst hlr
            have e2 : selHead.flatMap (cover n) = cover n left ++ cover n (left + 1) := by
              simp [hsel, hL, hR]
            rw [e2, coverRange_cons n left (left + 1) (by omega),
              coverRange_cons n (left + 1) (left + 1) le_rfl,
              coverRange_empty n (left + 2) (left + 1) (by omega), List.append_nil]
          · -- left odd, right odd: forces left = right
            have hform : l1 = left + 1 ∧ r1 = right := by
              constructor <;> simp [hl1, hr1, hL, hR]
            have hlr : left = right := by omega
            subst hlr
            have e2 : selHead.flatMap (cover n) = cover n left := by
              simp [hsel, hL, hR]
            rw [e2, coverRange_cons n left left le_rfl,
              coverRange_empty n (left + 1) left (by omega), List.append_nil]
      · intro k hk
        rcases List.mem_append.mp hk with h1 | h2
        · have : k = left ∨ k = right := by
            rcases List.mem_append.mp h1 with ha | hb
            · left
              rcases Nat.mod_two_eq_zero_or_one left with hL | hL <;> simp [hL] at ha
              · exact ha
            · right
              rcases Nat.mod_two_eq_zero_or_one right with hR | hR <;> simp [hR] at hb
              · exact hb
          rcases this with rfl | rfl <;> omega
        · exact hbnd k h2

/-! ### From visited nodes to range statistics -/

theorem coverRange_leaves (n : ℕ) :
    ∀ m a, a + m ≤ n → (List.range' (a + n) m).flatMap (cover n) = List.range' a m := by
  intro m
  induction m with
  | zero => intro a _; rfl
  | succ m ih =>
    intro a ham
    rw [List.range'_succ, List.flatMap_cons, cover_leaf n (a + n) (by omega) (by omega),
      List.range'_succ, show a + n + 1 = (a + 1) + n by ring, ih (a + 1) (by omega)]
    simp [show a + n - n = a by omega]

/-- Abstract value of the accumulator: none while the first flag is set. -/
def accVal (a : QAcc) : Option TreeNode := if a.first then none else some a.node

theorem accVal_absorb (acc : QAcc) (t : TreeNode) :
    accVal (absorb acc t) = mergeO (accVal acc) t := by
  cases hf : acc.first <;> simp [absorb, accVal, mergeO, hf]

theorem accVal_foldl (nodes : ℕ → TreeNode) (sel : List ℕ) (acc : QAcc) :
    accVal (sel.foldl (fun a k => absorb a (nodes k)) acc) =
      (sel.map nodes).foldl mergeO (accVal acc) := by
  induction sel generalizing acc with
  | nil => rfl
  | cons k ks ih =>
    rw [List.foldl_cons, List.map_cons, List.foldl_cons, ih, accVal_absorb]

theorem buildNodes_agg_aux (ps : List ℚ) :
    ∀ m k, 2 * ps.length - k ≤ m → 1 ≤ k → k < 2 * ps.length →
      aggO ((cover ps.length k).map (fun j => leafNode (ps.getD j 0))) =
        some ((buildNodes ps).getD k default) := by
  intro m
  induction m with
  | zero => intro k hm h1 h2; omega
  | succ m ih =>
    intro k hm h1 h2
    rcases Nat.lt_or_ge k ps.length with hk | hk
    · rw [cover_internal ps.length k h1 hk, List.map_append, aggO_append,
        ih (2 * k) (by omega) (by omega) (by omega),
        ih (2 * k + 1) (by omega) (by omega) (by omega),
        buildNodes_internal ps k h1 hk]
      rfl
    · rw [cover_leaf ps.length k hk h2]
      have hlf := buildNodes_leaf ps (k - ps.length) (by omega)
      rw [show ps.length + (k - ps.length) = k by omega] at hlf
      rw [hlf]
      rfl

theorem buildNodes_agg (ps : List ℚ) (k : ℕ) (h1 : 1 ≤ k) (h2 : k < 2 * ps.length) :
    aggO ((cover ps.length k).map (fun j => leafNode (ps.getD j 0))) =
      some ((buildNodes ps).getD k default) :=
  buildNodes_agg_aux ps (2 * ps.length) k (by omega) h1 h2

theorem aggO_flatMap (nodes : ℕ → TreeNode) (n : ℕ) (p : ℕ → ℚ) (sel : List ℕ)
    (h : ∀ k ∈ sel, aggO ((cover n k).map (fun j => leafNode (p j))) = some (nodes k)) :
    aggO (sel.map nodes) = aggO ((sel.flatMap (cover n)).map (fun j => leafNode (p j))) := by
  induction sel with
  | nil => rfl
  | cons k ks ih =>
    have hsplit : (k :: ks).map nodes = [nodes k] ++ ks.map nodes := rfl
    rw [hsplit, aggO_append, List.flatMap_cons, List.map_append, aggO_append,
      ih (fun j hj => h j (List.mem_cons_of_mem _ hj))]
    congr 1
    rw [h k (List.mem_cons_self k ks)]
    rfl

/-! ### Scalar statistics of a list of prices -/

def listMin : List ℚ → ℚ
  | [] => 0
  | x :: xs => xs.foldl min x

def listMax : List ℚ → ℚ
  | [] => 0
  | x :: xs => xs.foldl max x

def listSq (l : List ℚ) : List ℚ := l.map (fun x => x * x)

theorem foldl_min_mem (xs : List ℚ) : ∀ a, xs.foldl min a ∈ a :: xs := by
  induction xs with
  | nil => intro a; simp
  | cons x xs ih =>
    intro a
    rw [List.foldl_cons]
    rcases List.mem_cons.mp (ih (min a x)) with h | h
    · rcases min_choice a x with hc | hc <;> rw [h, hc] <;> simp
    · simp [h]

theorem foldl_min_le (xs : List ℚ) : ∀ a, xs.foldl min a ≤ a ∧ ∀ x ∈ xs, xs.foldl min a ≤ x := by
  induction xs with
  | nil => intro a; simp
  | cons x xs ih =>
    intro a
    rw [List.foldl_cons]
    obtain ⟨h1, h2⟩ := ih (min a x)
    refine ⟨le_trans h1 (min_le_left a x), ?_⟩
    intro y hy
    rcases List.mem_cons.mp hy with rfl | hy
    · exact le_trans h1 (min_le_right a y)
    · exact h2 y hy

theorem foldl_max_mem (xs : List ℚ) : ∀ a, xs.foldl max a ∈ a :: xs := by
  induction xs with
  | nil => intro a; simp
  | cons x xs ih =>
    intro a
    rw [List.foldl_cons]
    rcases List.mem_cons.mp (ih (max a x)) with h | h
    · rcases max_choice a x with hc | hc <;> rw [h, hc] <;> simp
    · simp [h]

theorem foldl_max_ge (xs : List ℚ) : ∀ a, a ≤ xs.foldl max a ∧ ∀ x ∈ xs, x ≤ xs.foldl max a := by
  induction xs with
  | nil => intro a; simp
  | cons x xs ih =>
    intro a
    rw [List.foldl_cons]
    obtain ⟨h1, h2⟩ := ih (max a x)
    refine ⟨le_trans (le_max_left a x) h1, ?_⟩
    intro y hy
    rcases List.mem_cons.mp hy with rfl | hy
    · exact le_trans (le_max_right a y) h1
    · exact h2 y hy

theorem listMin_mem (l : List ℚ) (h : l ≠ []) : listMin l ∈ l := by
  cases l with
  | nil => exact absurd rfl h
  | cons x xs => exact foldl_min_mem xs x

theorem listMin_le (l : List ℚ) (x : ℚ) (hx : x ∈ l) : listMin l ≤ x := by
  cases l with
  | nil => simp at hx
  | cons y ys =>
    rcases List.mem_cons.mp hx with rfl | hx
    · exact (foldl_min_le ys x).1
    · exact (foldl_min_le ys y).2 x hx

theorem listMax_mem (l : List ℚ) (h : l ≠ []) : listMax l ∈ l := by
  cases l with
  | nil => exact absurd rfl h
  | cons x xs => exact foldl_max_mem xs x

theorem le_listMax (l : List ℚ) (x : ℚ) (hx : x ∈ l) : x ≤ listMax l := by
  cases l with
  | nil => simp at hx
  | cons y ys =>
    rcases List.mem_cons.mp hx with rfl | hx
    · exact (foldl_max_ge ys x).1
    · exact (foldl_max_ge ys y).2 x hx

theorem foldl_merge_stats (p : ℕ → ℚ) (ks : List ℕ) :
    ∀ a, (ks.map (fun j => leafNode (p j))).foldl mergeNodes a =
      ⟨(ks.map p).foldl min a.min, (ks.map p).foldl max a.max,
       a.sum + (ks.map p).sum, a.sum_sq + (listSq (ks.map p)).sum,
       a.count + ks.length⟩ := by
  induction ks with
  | nil => intro a; simp [listSq]
  | cons k ks ih =>
    intro a
    rw [List.map_cons, List.foldl_cons, ih, mergeNodes_eq]
    simp only [leafNode, List.map_cons, List.foldl_cons, List.sum_cons, listSq,
      List.length_cons]
    congr 1
    · ring
    · ring
    · omega

theorem aggO_stats (p : ℕ → ℚ) (ks : List ℕ) (hne : ks ≠ []) :
    aggO (ks.map (fun j => leafNode (p j))) =
      some ⟨listMin (ks.map p), listMax (ks.map p), (ks.map p).sum,
        (listSq (ks.map p)).sum, ks.length⟩ := by
  cases ks with
  | nil => exact absurd rfl hne
  | cons k ks =>
    rw [List.map_cons,
      show aggO (leafNode (p k) :: ks.map (fun j => leafNode (p j))) =
        (ks.map (fun j => leafNode (p j))).foldl mergeO (some (leafNode (p k))) from rfl,
      foldl_mergeO_some, foldl_merge_stats]
    simp [leafNode, listMin, listMax, listSq]
    omega

/-- The elements of a validated price list in positions ql..qr inclusive. -/
def windowSlice (qs : List ℚ) (ql qr : ℕ) : List ℚ :=
  (List.range' ql (qr + 1 - ql)).map (fun k => qs.getD k 0)

/-- Characterization of the accumulated node of a valid query. -/
theorem queryLoop_stats (qs : List ℚ) (ql qr : ℕ) (hql : ql ≤ qr) (hqr : qr < qs.length) :
    accVal (queryLoop (fun k => (buildNodes qs).getD k default)
        (ql + qs.length) (qr + qs.length) initAcc) =
      some ⟨listMin (windowSlice qs ql qr), listMax (windowSlice qs ql qr),
        (windowSlice qs ql qr).sum, (listSq (windowSlice qs ql qr)).sum, qr + 1 - ql⟩ := by
  set n := qs.length with hn
  obtain ⟨sel, hfold, hperm, hbnd⟩ :=
    queryLoop_sel (fun k => (buildNodes qs).getD k default) n (qr + n) (ql + n) initAcc
      (by omega) (by omega)
  rw [hfold, accVal_foldl]
  rw [show accVal initAcc = none from rfl]
  rw [show (sel.map fun k => (buildNodes qs).getD k default).foldl mergeO none =
    aggO (sel.map fun k => (buildNodes qs).getD k default) from rfl]
  rw [aggO_flatMap (fun k => (buildNodes qs).getD k default) n (fun k => qs.getD k 0) sel
    (fun k hk => buildNodes_agg qs k (hbnd k hk).1 (by have := (hbnd k hk).2; omega))]
  rw [aggO_perm _ _ (List.Perm.map _ hperm)]
  have hcnt : (qr + n) + 1 - (ql + n) = qr + 1 - ql := by omega
  have hcr : coverRange n (ql + n) (qr + n) = List.range' ql (qr + 1 - ql) := by
    unfold coverRange
    rw [hcnt]
    exact coverRange_leaves n (qr + 1 - ql) ql (by omega)
  rw [hcr, aggO_stats _ _ (by
    have hlen : (List.range' ql (qr + 1 - ql)).length = qr + 1 - ql := by simp
    intro hnil
    rw [hnil] at hlen
    simp at hlen
    omega)]
  rw [show (List.range' ql (qr + 1 - ql)).map (fun k => qs.getD k 0) =
    windowSlice qs ql qr from rfl]
  simp

theorem accVal_some {a : QAcc} {x : TreeNode} (h : accVal a = some x) : a.node = x := by
  unfold accVal at h
  by_cases hf : a.first
  · rw [if_pos hf] at h
    exact absurd h (by simp)
  · rw [if_neg hf] at h
    exact Option.some.inj h

/-- Full characterization of a valid query on a freshly built tree. -/
theorem querySegmentTree_built (qs : List ℚ) (ql qr : ℕ) (hql : ql ≤ qr)
    (hqr : qr < qs.length) (b1 b2 b3 b4 : Bool) :
    querySegmentTree (some ⟨buildNodes qs, qs.length, 2 * qs.length⟩) ql qr b1 b2 b3 b4 =
      (0, ⟨if b1 then some (listMin (windowSlice qs ql qr)) else none,
           if b2 then some (listMax (windowSlice qs ql qr)) else none,
           if b3 then some ((windowSlice qs ql qr).sum / ((qr + 1 - ql : ℕ) : ℚ)) else none,
           if b4 then some ((listSq (windowSlice qs ql qr)).sum / ((qr + 1 - ql : ℕ) : ℚ) -
             ((windowSlice qs ql qr).sum / ((qr + 1 - ql : ℕ) : ℚ)) *
             ((windowSlice qs ql qr).sum / ((qr + 1 - ql : ℕ) : ℚ))) else none⟩) := by
  have hstats := queryLoop_stats qs ql qr hql hqr
  have hnode := accVal_some hstats
  simp only [querySegmentTree]
  rw [if_neg (by omega)]
  rw [hnode]
  dsimp only
  simp only [if_pos (by omega : 0 < qr + 1 - ql)]

/-- C1: for every built tree over a valid price sequence of length n and
every query range 0 ≤ ql ≤ qr < n, querySegmentTree returns status 0 and its
min, max, avg and variance equal those of a direct scan of prices ql..qr:
min and max are exactly the extrema of the range, avg = sum/count and
variance = sumOfSquares/count - avg·avg over exactly the count = qr+1-ql
elements of the range (full-range and single-element queries are the
instances ql = 0, qr = n-1 and ql = qr). -/
theorem c1_query_matches_scan (prices : Option (List DVal)) (oh a1 a2 : Bool)
    (ps : List DVal) (t : SegTree) (hps : prices = some ps)
    (hbuild : buildSegmentTree prices oh a1 a2 = (0, some t))
    (ql qr : ℕ) (hql : ql ≤ qr) (hqr : qr < ps.length) :
    querySegmentTree (some t) ql qr true true true true =
      (0, ⟨some (listMin (windowSlice (ps.map DVal.toRat) ql qr)),
           some (listMax (windowSlice (ps.map DVal.toRat) ql qr)),
           some ((windowSlice (ps.map DVal.toRat) ql qr).sum / ((qr + 1 - ql : ℕ) : ℚ)),
           some ((listSq (windowSlice (ps.map DVal.toRat) ql qr)).sum / ((qr + 1 - ql : ℕ) : ℚ) -
             ((windowSlice (ps.map DVal.toRat) ql qr).sum / ((qr + 1 - ql : ℕ) : ℚ)) *
             ((windowSlice (ps.map DVal.toRat) ql qr).sum / ((qr + 1 - ql : ℕ) : ℚ)))⟩) ∧
    (windowSlice (ps.map DVal.toRat) ql qr).length = qr + 1 - ql ∧
    listMin (windowSlice (ps.map DVal.toRat) ql qr) ∈ windowSlice (ps.map DVal.toRat) ql qr ∧
    (∀ x ∈ windowSlice (ps.map DVal.toRat) ql qr,
      listMin (windowSlice (ps.map DVal.toRat) ql qr) ≤ x) ∧
    listMax (windowSlice (ps.map DVal.toRat) ql qr) ∈ windowSlice (ps.map DVal.toRat) ql qr ∧
    (∀ x ∈ windowSlice (ps.map DVal.toRat) ql qr,
      x ≤ listMax (windowSlice (ps.map DVal.toRat) ql qr)) := by
  obtain ⟨ps2, hps2, ht⟩ := buildSegmentTree_success hbuild
  rw [hps] at hps2
  obtain rfl : ps = ps2 := by injection hps2
  subst ht
  have hlen : (ps.map DVal.toRat).length = ps.length := by simp
  have hne : windowSlice (ps.map DVal.toRat) ql qr ≠ [] := by
    unfold windowSlice
    intro h
    have h2 := congrArg List.length h
    simp at h2
    omega
  refine ⟨?_, ?_, listMin_mem _ hne, fun x hx => listMin_le _ x hx, listMax_mem _ hne,
    fun x hx => le_listMax _ x hx⟩
  · have hq := querySegmentTree_built (ps.map DVal.toRat) ql qr hql (by omega)
      true true true true
    rw [show ps.length = (ps.map DVal.toRat).length from hlen.symm]
    simpa using hq
  · unfold windowSlice
    simp

/-- Witness for c1_query_matches_scan: a two-element sequence queried over
its full range. -/
theorem c1_query_matches_scan_witness :
    (some [DVal.fin 1, DVal.fin 3] = some [DVal.fin 1, DVal.fin 3]) ∧
    (buildSegmentTree (some [DVal.fin 1, DVal.fin 3]) true true true =
      (0, some ⟨buildNodes ([DVal.fin 1, DVal.fin 3].map DVal.toRat),
        ([DVal.fin 1, DVal.fin 3] : List DVal).length,
        2 * ([DVal.fin 1, DVal.fin 3] : List DVal).length⟩)) ∧
    (0 : ℕ) ≤ 1 ∧ 1 < ([DVal.fin 1, DVal.fin 3] : List DVal).length ∧
    (querySegmentTree
        (some ⟨buildNodes ([DVal.fin 1, DVal.fin 3].map DVal.toRat),
          ([DVal.fin 1, DVal.fin 3] : List DVal).length,
          2 * ([DVal.fin 1, DVal.fin 3] : List DVal).length⟩) 0 1 true true true true =
      (0, ⟨some (listMin (windowSlice ([DVal.fin 1, DVal.fin 3].map DVal.toRat) 0 1)),
           some (listMax (windowSlice ([DVal.fin 1, DVal.fin 3].map DVal.toRat) 0 1)),
           some ((windowSlice ([DVal.fin 1, DVal.fin 3].map DVal.toRat) 0 1).sum /
             ((1 + 1 - 0 : ℕ) : ℚ)),
           some ((listSq (windowSlice ([DVal.fin 1, DVal.fin 3].map DVal.toRat) 0 1)).sum /
               ((1 + 1 - 0 : ℕ) : ℚ) -
             ((windowSlice ([DVal.fin 1, DVal.fin 3].map DVal.toRat) 0 1).sum /
               ((1 + 1 - 0 : ℕ) : ℚ)) *
             ((windowSlice ([DVal.fin 1, DVal.fin 3].map DVal.toRat) 0 1).sum /
               ((1 + 1 - 0 : ℕ) : ℚ)))⟩) ∧
      (windowSlice ([DVal.fin 1, DVal.fin 3].map DVal.toRat) 0 1).length = 1 + 1 - 0 ∧
      listMin (windowSlice ([DVal.fin 1, DVal.fin 3].map DVal.toRat) 0 1) ∈
        windowSlice ([DVal.fin 1, DVal.fin 3].map DVal.toRat) 0 1 ∧
      (∀ x ∈ windowSlice ([DVal.fin 1, DVal.fin 3].map DVal.toRat) 0 1,
        listMin (windowSlice ([DVal.fin 1, DVal.fin 3].map DVal.toRat) 0 1) ≤ x) ∧
      listMax (windowSlice ([DVal.fin 1, DVal.fin 3].map DVal.toRat) 0 1) ∈
        windowSlice ([DVal.fin 1, DVal.fin 3].map DVal.toRat) 0 1 ∧
      (∀ x ∈ windowSlice ([DVal.fin 1, DVal.fin 3].map DVal.toRat) 0 1,
        x ≤ listMax (windowSlice ([DVal.fin 1, DVal.fin 3].map DVal.toRat) 0 1))) :=
  ⟨rfl, by rfl, by decide, by decide,
    c1_query_matches_scan (some [DVal.fin 1, DVal.fin 3]) true true true
      [DVal.fin 1, DVal.fin 3]
      ⟨buildNodes ([DVal.fin 1, DVal.fin 3].map DVal.toRat),
        ([DVal.fin 1, DVal.fin 3] : List DVal).length,
        2 * ([DVal.fin 1, DVal.fin 3] : List DVal).length⟩
      rfl (by rfl) 0 1 (by decide) (by decide)⟩

/-! ## SlidingWindowAnalyzer: src/c_modules/src/sliding_window.c -/

/-- The circular index deque (sliding_window.c lines 24-78): indices is the
allocated buffer, capacity its allocation size, front == back encodes empty.
C computes (back - 1 + capacity) % capacity in size_t; for back < capacity
this equals (back + capacity - 1) % capacity, which is the form used here. -/
structure CDeque where
  indices : Array ℕ
  front : ℕ
  back : ℕ
  capacity : ℕ
deriving DecidableEq, Repr

/-- createDeque (sliding_window.c lines 31-45); the C buffer is
uninitialized, modelled as zeros. -/
def createDeque (capacity : ℕ) : CDeque := ⟨Array.mkArray capacity 0, 0, 0, capacity⟩

def CDeque.isEmpty (dq : CDeque) : Bool := dq.front == dq.back

def CDeque.pushBack (dq : CDeque) (idx : ℕ) : CDeque :=
  { dq with indices := dq.indices.setD dq.back idx,
            back := (dq.back + 1) % dq.capacity }

def CDeque.popBack (dq : CDeque) : CDeque :=
  { dq with back := (dq.back + dq.capacity - 1) % dq.capacity }

def CDeque.popFront (dq : CDeque) : CDeque :=
  { dq with front := (dq.front + 1) % dq.capacity }

def CDeque.frontVal (dq : CDeque) : ℕ := dq.indices.getD dq.front 0

def CDeque.backVal (dq : CDeque) : ℕ :=
  dq.indices.getD ((dq.back + dq.capacity - 1) % dq.capacity) 0

/-- Number of live entries between front and back. -/
def CDeque.size (dq : CDeque) : ℕ := (dq.back + dq.capacity - dq.front) % dq.capacity

/-- The live entries, front first. -/
def CDeque.toList (dq : CDeque) : List ℕ :=
  (List.range dq.size).map (fun t => dq.indices.getD ((dq.front + t) % dq.capacity) 0)

/-- Well-formedness of the deque fields relative to the allocation. -/
def DqWF (dq : CDeque) : Prop :=
  dq.indices.size = dq.capacity ∧ dq.front < dq.capacity ∧ dq.back < dq.capacity ∧
    1 ≤ dq.capacity

/-- The pop-from-the-back while loop (sliding_window.c lines 167-169 etc.);
fuel bounds the iteration count, and the callers pass the deque's size,
which the well-formedness proof shows never runs out before the loop
condition fails. -/
def popBackLoop (pred : ℕ → Bool) : CDeque → ℕ → CDeque
  | dq, 0 => dq
  | dq, fuel + 1 =>
    if ¬ dq.isEmpty ∧ pred dq.backVal then popBackLoop pred dq.popBack fuel else dq

/-- The pop-from-the-front while loop (sliding_window.c lines 198-203). -/
def popFrontLoop (pred : ℕ → Bool) : CDeque → ℕ → CDeque
  | dq, 0 => dq
  | dq, fuel + 1 =>
    if ¬ dq.isEmpty ∧ pred dq.frontVal then popFrontLoop pred dq.popFront fuel else dq

/-- Insert an index into a monotonic deque: pop dominated entries from the
back, then push (sliding_window.c lines 166-176, 205-214). -/
def dqInsert (pred : ℕ → Bool) (dq : CDeque) (i : ℕ) : CDeque :=
  (popBackLoop pred dq dq.size).pushBack i

/-- The four pattern labels the C code writes into the fixed-size string
buffer (all four literals fit, so truncation never occurs). -/
inductive Pattern where
  | bullish
  | bearish
  | volatile
  | stable
deriving DecidableEq, Repr

/-- classifyPattern (sliding_window.c lines 88-103).  The C code computes
change_pct = fabs((last - first) / first) and tests change_pct > 0.05: for
first ≠ 0 that is the exact rational |(last - first) / first| > 1/20; for
first = 0 the IEEE division gives ±Inf when last ≠ first, so fabs gives +Inf
and the test is true, and gives NaN when last = first, so the test is false;
the disjunct first = 0 ∧ last ≠ first encodes exactly that.  The C code then
computes cv = sqrt(variance) / fabs(mean) and tests cv > 0.1; over the
rationals that test is encoded by its square, variance > mean^2 / 100, which
agrees with the IEEE evaluation in every case: for variance ≥ 0 and mean ≠ 0
squaring the comparison of nonnegatives is exact; for mean = 0 the C
division gives +Inf (variance > 0, so the test is true) or NaN
(variance ≤ 0, test false), matching variance > 0; for variance < 0, sqrt
gives NaN and the test is false. -/
def classifyPattern (first last variance mean : ℚ) : Pattern :=
  if (first = 0 ∧ last ≠ first ∨ first ≠ 0 ∧ |(last - first) / first| > 1/20) ∧
      last > first then .bullish
  else if (first = 0 ∧ last ≠ first ∨ first ≠ 0 ∧ |(last - first) / first| > 1/20) ∧
      last < first then .bearish
  else if variance > mean ^ 2 / 100 then .volatile
  else .stable

/-- WindowStats (sliding_window.c lines 10-15), the pattern as the label
written into the buffer. -/
structure WRec where
  max : ℚ
  min : ℚ
  avg : ℚ
  pattern : Pattern
deriving DecidableEq, Repr

instance : Inhabited WRec := ⟨⟨0, 0, 0, .stable⟩⟩

/-- WindowResult (sliding_window.c lines 17-21). -/
structure WindowResult where
  windows : List WRec
  num_windows : ℕ
  window_size : ℕ
deriving DecidableEq, Repr

/-- Running state of the analyzer: the incremental sums and both deques. -/
structure SWState where
  sum : ℚ
  sum_sq : ℚ
  max_dq : CDeque
  min_dq : CDeque

/-- One iteration of the first-window loop (sliding_window.c lines 162-177).
The min-deque pop condition prices[back] >= prices[i] is written
p i ≤ p j. -/
def firstWindowStep (p : ℕ → ℚ) (st : SWState) (i : ℕ) : SWState :=
  { sum := st.sum + p i
    sum_sq := st.sum_sq + p i * p i
    max_dq := dqInsert (fun j => decide (p j ≤ p i)) st.max_dq i
    min_dq := dqInsert (fun j => decide (p i ≤ p j)) st.min_dq i }

def initState (w : ℕ) : SWState := ⟨0, 0, createDeque (w + 1), createDeque (w + 1)⟩

def firstWindow (p : ℕ → ℚ) (w : ℕ) : SWState :=
  (List.range w).foldl (firstWindowStep p) (initState w)

/-- The per-window record stored by the analyzer (sliding_window.c lines
180-186 and 216-223). -/
def mkWRec (p : ℕ → ℚ) (w : ℕ) (st : SWState) (firstIdx lastIdx : ℕ) : WRec :=
  { max := p st.max_dq.frontVal
    min := p st.min_dq.frontVal
    avg := st.sum / (w : ℚ)
    pattern := classifyPattern (p firstIdx) (p lastIdx)
      (st.sum_sq / (w : ℚ) - (st.sum / (w : ℚ)) * (st.sum / (w : ℚ)))
      (st.sum / (w : ℚ)) }

/-- One iteration of the slide loop (sliding_window.c lines 189-224). -/
def slideStep (p : ℕ → ℚ) (w : ℕ) (st : SWState × List WRec) (i : ℕ) :
    SWState × List WRec :=
  let out_idx := i - 1
  let in_idx := i + w - 1
  let sum := st.1.sum - p out_idx + p in_idx
  let sum_sq := st.1.sum_sq - p out_idx * p out_idx + p in_idx * p in_idx
  let mdq0 := popFrontLoop (fun j => decide (j ≤ out_idx)) st.1.max_dq st.1.max_dq.size
  let ndq0 := popFrontLoop (fun j => decide (j ≤ out_idx)) st.1.min_dq st.1.min_dq.size
  let mdq := dqInsert (fun j => decide (p j ≤ p in_idx)) mdq0 in_idx
  let ndq := dqInsert (fun j => decide (p in_idx ≤ p j)) ndq0 in_idx
  let st2 : SWState := ⟨sum, sum_sq, mdq, ndq⟩
  (st2, st.2 ++ [mkWRec p w st2 i in_idx])

/-- The first window followed by the slide loop over windows 1..num-1. -/
def slidingLoop (p : ℕ → ℚ) (w num : ℕ) : SWState × List WRec :=
  (List.range' 1 (num - 1)).foldl (slideStep p w)
    (firstWindow p w, [mkWRec p w (firstWindow p w) 0 (w - 1)])

/-- analyzeSlidingWindow (sliding_window.c lines 105-231).  The two deque
allocations are checked together in C, modelled by one oracle. -/
def analyzeSlidingWindow (prices : Option (List DVal)) (w : ℕ) (out_handle : Bool)
    (alloc_result alloc_windows alloc_deques : Bool) : Int × Option WindowResult :=
  match prices with
  | none => (-1, none)
  | some ps =>
    if !out_handle then (-1, none)
    else if ps.length = 0 ∨ MAX_ARRAY_SIZE < ps.length ∨ w = 0 ∨ ps.length < w then
      (-2, none)
    else if ¬ ps.all DVal.isFinite then (-4, none)
    else if !alloc_result then (-3, none)
    else if !alloc_windows then (-3, none)
    else if !alloc_deques then (-3, none)
    else
      (0, some ⟨(slidingLoop (fun k => (ps.map DVal.toRat).getD k 0) w
          (ps.length - w + 1)).2, ps.length - w + 1, w⟩)

/-- getWindowResult (sliding_window.c lines 233-259): each out flag models
whether the corresponding output pointer is non-NULL. -/
def getWindowResult (handle : Option WindowResult) (idx : ℕ)
    (out_max out_min out_avg out_pattern : Bool) :
    Int × (Option ℚ × Option ℚ × Option ℚ × Option Pattern) :=
  match handle with
  | none => (-1, (none, none, none, none))
  | some r =>
    if r.num_windows ≤ idx then (-2, (none, none, none, none))
    else
      (0, (if out_max then some (r.windows.getD idx default).max else none,
           if out_min then some (r.windows.getD idx default).min else none,
           if out_avg then some (r.windows.getD idx default).avg else none,
           if out_pattern then some (r.windows.getD idx default).pattern else none))

/-! ### Circular deque refinement -/

theorem mod_double (a c : ℕ) (hc : 1 ≤ c) (h : a < 2 * c) :
    a % c = if a < c then a else a - c := by
  split
  · exact Nat.mod_eq_of_lt (by assumption)
  · have e : a % c = (a - c) % c := by
      conv_lhs => rw [show a = (a - c) + c by omega]
      rw [Nat.add_mod_right]
    rw [e, Nat.mod_eq_of_lt (by omega)]

theorem size_spec (dq : CDeque) (h : DqWF dq) :
    dq.size = if dq.front ≤ dq.back then dq.back - dq.front
      else dq.back + dq.capacity - dq.front := by
  obtain ⟨hi, hf, hb, hc⟩ := h
  unfold CDeque.size
  rw [mod_double _ _ hc (by omega)]
  split_ifs <;> omega

theorem size_lt (dq : CDeque) (h : DqWF dq) : dq.size < dq.capacity :=
  Nat.mod_lt _ (lt_of_lt_of_le one_pos h.2.2.2)

theorem toList_length (dq : CDeque) : dq.toList.length = dq.size := by
  unfold CDeque.toList
  simp

theorem isEmpty_iff_size (dq : CDeque) (h : DqWF dq) :
    dq.isEmpty = true ↔ dq.size = 0 := by
  obtain ⟨hi, hf, hb, hc⟩ := h
  rw [size_spec dq ⟨hi, hf, hb, hc⟩]
  unfold CDeque.isEmpty
  constructor
  · intro he
    have : dq.front = dq.back := by simpa using he
    split_ifs <;> omega
  · intro hz
    split_ifs at hz <;> simp <;> omega

theorem toList_eq_nil_iff (dq : CDeque) : dq.toList = [] ↔ dq.size = 0 := by
  constructor
  · intro h
    have := congrArg List.length h
    rw [toList_length] at this
    simpa using this
  · intro h
    unfold CDeque.toList
    rw [h]
    rfl

theorem pos_inj (dq : CDeque) (h : DqWF dq) (t1 t2 : ℕ) (h1 : t1 < dq.capacity)
    (h2 : t2 < dq.capacity)
    (he : (dq.front + t1) % dq.capacity = (dq.front + t2) % dq.capacity) : t1 = t2 := by
  obtain ⟨hi, hf, hb, hc⟩ := h
  rw [mod_double _ _ hc (by omega), mod_double _ _ hc (by omega)] at he
  split_ifs at he <;> omega

theorem pos_back (dq : CDeque) (h : DqWF dq) :
    (dq.front + dq.size) % dq.capacity = dq.back := by
  obtain ⟨hi, hf, hb, hc⟩ := h
  rw [size_spec dq ⟨hi, hf, hb, hc⟩]
  split_ifs with h1
  · rw [show dq.front + (dq.back - dq.front) = dq.back by omega]
    exact Nat.mod_eq_of_lt hb
  · rw [show dq.front + (dq.back + dq.capacity - dq.front) = dq.back + dq.capacity by omega,
      Nat.add_mod_right]
    exact Nat.mod_eq_of_lt hb

theorem pushBack_wf (dq : CDeque) (x : ℕ) (h : DqWF dq) : DqWF (dq.pushBack x) := by
  obtain ⟨hi, hf, hb, hc⟩ := h
  exact ⟨by simp [CDeque.pushBack, Array.size_setD, hi], by simpa [CDeque.pushBack] using hf,
    Nat.mod_lt _ (lt_of_lt_of_le one_pos hc), hc⟩

theorem pushBack_size (dq : CDeque) (x : ℕ) (h : DqWF dq)
    (hs : dq.size < dq.capacity - 1) : (dq.pushBack x).size = dq.size + 1 := by
  obtain ⟨hi, hf, hb, hc⟩ := h
  rw [size_spec dq ⟨hi, hf, hb, hc⟩] at hs
  show ((dq.back + 1) % dq.capacity + dq.capacity - dq.front) % dq.capacity = dq.size + 1
  rw [size_spec dq ⟨hi, hf, hb, hc⟩, mod_double (dq.back + 1) _ hc (by omega)]
  split_ifs at hs ⊢
  all_goals rw [mod_double _ _ hc (by omega)]
  all_goals split_ifs <;> omega

theorem pushBack_toList (dq : CDeque) (x : ℕ) (h : DqWF dq)
    (hs : dq.size < dq.capacity - 1) :
    (dq.pushBack x).toList = dq.toList ++ [x] := by
  have hwf := h
  obtain ⟨hi, hf, hb, hc⟩ := h
  show (List.range (dq.pushBack x).size).map
      (fun t => (dq.indices.setD dq.back x).getD ((dq.front + t) % dq.capacity) 0) =
    dq.toList ++ [x]
  rw [pushBack_size dq x hwf hs, List.range_succ, List.map_append]
  congr 1
  · refine List.map_congr_left ?_
    intro t ht
    simp only [List.mem_range] at ht
    rw [setD_getD, if_neg ?_]
    intro hcond
    have : t = dq.size := pos_inj dq hwf t dq.size (by omega)
      (lt_of_lt_of_le (size_lt dq hwf) le_rfl)
      (by rw [hcond.1, pos_back dq hwf])
    omega
  · rw [List.map_cons, List.map_nil, pos_back dq hwf, setD_getD,
      if_pos ⟨rfl, by omega⟩]

theorem popBack_wf (dq : CDeque) (h : DqWF dq) : DqWF dq.popBack := by
  obtain ⟨hi, hf, hb, hc⟩ := h
  exact ⟨hi, hf, Nat.mod_lt _ (by omega), hc⟩

theorem popBack_size (dq : CDeque) (h : DqWF dq) (hne : dq.size ≠ 0) :
    dq.popBack.size = dq.size - 1 := by
  obtain ⟨hi, hf, hb, hc⟩ := h
  rw [size_spec dq ⟨hi, hf, hb, hc⟩] at hne
  show ((dq.back + dq.capacity - 1) % dq.capacity + dq.capacity - dq.front) % dq.capacity =
    dq.size - 1
  rw [size_spec dq ⟨hi, hf, hb, hc⟩, mod_double (dq.back + dq.capacity - 1) _ hc (by omega)]
  split_ifs at hne ⊢
  all_goals rw [mod_double _ _ hc (by omega)]
  all_goals split_ifs <;> omega

theorem popBack_toList (dq : CDeque) (h : DqWF dq) (hne : dq.size ≠ 0) :
    dq.popBack.toList = dq.toList.dropLast := by
  have hwf := h
  show (List.range dq.popBack.size).map
      (fun t => dq.indices.getD ((dq.front + t) % dq.capacity) 0) = dq.toList.dropLast
  rw [popBack_size dq hwf hne]
  unfold CDeque.toList
  rw [show dq.size = (dq.size - 1) + 1 by omega, List.range_succ, List.map_append]
  rw [List.map_cons, List.map_nil, List.dropLast_concat]
  rw [show (dq.size - 1) + 1 - 1 = dq.size - 1 by omega]

theorem popFront_wf (dq : CDeque) (h : DqWF dq) : DqWF dq.popFront := by
  obtain ⟨hi, hf, hb, hc⟩ := h
  exact ⟨hi, Nat.mod_lt _ (by omega), hb, hc⟩

theorem popFront_size (dq : CDeque) (h : DqWF dq) (hne : dq.size ≠ 0) :
    dq.popFront.size = dq.size - 1 := by
  obtain ⟨hi, hf, hb, hc⟩ := h
  rw [size_spec dq ⟨hi, hf, hb, hc⟩] at hne
  show (dq.back + dq.capacity - (dq.front + 1) % dq.capacity) % dq.capacity = dq.size - 1
  rw [size_spec dq ⟨hi, hf, hb, hc⟩, mod_double (dq.front + 1) _ hc (by omega)]
  split_ifs at hne ⊢
  all_goals rw [mod_double _ _ hc (by omega)]
  all_goals split_ifs <;> omega

theorem range_map_shift {α : Type} (g : ℕ → α) (n : ℕ) :
    (List.range (n + 1)).map g = g 0 :: (List.range n).map (fun t => g (t + 1)) := by
  rw [List.range_succ_eq_map, List.map_cons, List.map_map]
  rfl

theorem popFront_toList (dq : CDeque) (h : DqWF dq) (hne : dq.size ≠ 0) :
    dq.popFront.toList = dq.toList.tail := by
  have hwf := h
  obtain ⟨hi, hf, hb, hc⟩ := h
  show (List.range dq.popFront.size).map
      (fun t => dq.indices.getD (((dq.front + 1) % dq.capacity + t) % dq.capacity) 0) =
    dq.toList.tail
  rw [popFront_size dq hwf hne]
  unfold CDeque.toList
  rw [show dq.size = (dq.size - 1) + 1 by omega, range_map_shift]
  rw [List.tail_cons]
  refine List.map_congr_left ?_
  intro t ht
  rw [Nat.mod_add_mod, show dq.front + 1 + t = dq.front + (t + 1) by omega]

theorem frontVal_head (dq : CDeque) (h : DqWF dq) (hne : dq.toList ≠ []) :
    dq.frontVal = dq.toList.head hne := by
  have hwf := h
  obtain ⟨hi, hf, hb, hc⟩ := h
  have hsz : dq.size ≠ 0 := by
    intro hz
    exact hne ((toList_eq_nil_iff dq).mpr hz)
  have hcons : dq.toList = dq.frontVal ::
      (List.range (dq.size - 1)).map
        (fun t => dq.indices.getD ((dq.front + (t + 1)) % dq.capacity) 0) := by
    unfold CDeque.toList
    rw [show dq.size = (dq.size - 1) + 1 by omega, range_map_shift]
    congr 1
    show dq.indices.getD ((dq.front + 0) % dq.capacity) 0 = dq.frontVal
    rw [Nat.add_zero, Nat.mod_eq_of_lt hf]
    rfl
  have hq : dq.toList.head? = some dq.frontVal := by rw [hcons]; rfl
  have e1 : dq.toList.head? = some (dq.toList.head hne) := List.head?_eq_head hne
  exact (Option.some.inj (e1.symm.trans hq)).symm

theorem getLast?_range_map {α : Type} (g : ℕ → α) (n : ℕ) :
    ((List.range (n + 1)).map g).getLast? = some (g n) := by
  rw [List.range_succ, List.map_append]
  simp

theorem getLast_range_map {α : Type} (g : ℕ → α) (n : ℕ)
    (hne : (List.range (n + 1)).map g ≠ []) :
    ((List.range (n + 1)).map g).getLast hne = g n := by
  have h1 := getLast?_range_map g n
  have h2 := List.getLast?_eq_getLast ((List.range (n + 1)).map g) hne
  exact Option.some.inj (h2.symm.trans h1)

theorem backVal_getLast (dq : CDeque) (h : DqWF dq) (hne : dq.toList ≠ []) :
    dq.backVal = dq.toList.getLast hne := by
  have hwf := h
  obtain ⟨hi, hf, hb, hc⟩ := h
  have hsz : dq.size ≠ 0 := by
    intro hz
    exact hne ((toList_eq_nil_iff dq).mpr hz)
  have hpos : (dq.front + (dq.size - 1)) % dq.capacity =
      (dq.back + dq.capacity - 1) % dq.capacity := by
    have hp := pos_back dq hwf
    calc (dq.front + (dq.size - 1)) % dq.capacity
        = (dq.front + (dq.size - 1) + dq.capacity) % dq.capacity := (Nat.add_mod_right _ _).symm
      _ = (dq.front + dq.size + (dq.capacity - 1)) % dq.capacity := by congr 1; omega
      _ = ((dq.front + dq.size) % dq.capacity + (dq.capacity - 1)) % dq.capacity := by
          rw [Nat.mod_add_mod]
      _ = (dq.back + dq.capacity - 1) % dq.capacity := by rw [hp]; congr 1; omega
  have hl : dq.toList.getLast hne =
      dq.indices.getD ((dq.front + (dq.size - 1)) % dq.capacity) 0 := by
    have h2 : dq.toList = (List.range ((dq.size - 1) + 1)).map
        (fun t => dq.indices.getD ((dq.front + t) % dq.capacity) 0) := by
      unfold CDeque.toList
      rw [show (dq.size - 1) + 1 = dq.size by omega]
    have hq : dq.toList.getLast? =
        some (dq.indices.getD ((dq.front + (dq.size - 1)) % dq.capacity) 0) := by
      rw [h2]
      exact getLast?_range_map _ _
    have e2 := List.getLast?_eq_getLast dq.toList hne
    exact Option.some.inj (e2.symm.trans hq)
  show dq.indices.getD ((dq.back + dq.capacity - 1) % dq.capacity) 0 = dq.toList.getLast hne
  rw [hl, ← hpos]

/-! ### While-loop refinement -/

/-- Drop elements from the back of a list while they satisfy pred. -/
def dropBackWhile (pred : ℕ → Bool) (L : List ℕ) : List ℕ :=
  (L.reverse.dropWhile pred).reverse

theorem dropBackWhile_stop (pred : ℕ → Bool) (L : List ℕ) (hne : L ≠ [])
    (hlast : pred (L.getLast hne) = false) : dropBackWhile pred L = L := by
  unfold dropBackWhile
  have hdecomp : L = L.dropLast ++ [L.getLast hne] := (List.dropLast_append_getLast hne).symm
  conv_lhs => rw [hdecomp]
  rw [List.reverse_append]
  simp only [List.reverse_cons, List.reverse_nil, List.nil_append, List.singleton_append,
    List.dropWhile_cons, hlast]
  rw [if_neg (by simp), List.reverse_cons, List.reverse_reverse]
  exact hdecomp.symm

theorem dropBackWhile_pop (pred : ℕ → Bool) (L : List ℕ) (hne : L ≠ [])
    (hlast : pred (L.getLast hne) = true) :
    dropBackWhile pred L = dropBackWhile pred L.dropLast := by
  unfold dropBackWhile
  have hdecomp : L = L.dropLast ++ [L.getLast hne] := (List.dropLast_append_getLast hne).symm
  conv_lhs => rw [hdecomp]
  rw [List.reverse_append]
  simp [List.dropWhile_cons, hlast]

theorem dropBackWhile_sublist (pred : ℕ → Bool) (L : List ℕ) :
    (dropBackWhile pred L).Sublist L := by
  unfold dropBackWhile
  have h1 := List.dropWhile_sublist (l := L.reverse) pred
  have h2 := List.Sublist.reverse h1
  rwa [List.reverse_reverse] at h2

theorem dropBackWhile_length (pred : ℕ → Bool) (L : List ℕ) :
    (dropBackWhile pred L).length ≤ L.length :=
  (dropBackWhile_sublist pred L).length_le

theorem popBackLoop_spec (pred : ℕ → Bool) :
    ∀ fuel dq, DqWF dq → dq.size ≤ fuel →
      DqWF (popBackLoop pred dq fuel) ∧
      (popBackLoop pred dq fuel).capacity = dq.capacity ∧
      (popBackLoop pred dq fuel).front = dq.front ∧
      (popBackLoop pred dq fuel).indices = dq.indices ∧
      (popBackLoop pred dq fuel).toList = dropBackWhile pred dq.toList := by
  intro fuel
  induction fuel with
  | zero =>
    intro dq hwf hf
    have hz : dq.size = 0 := by omega
    have hnil : dq.toList = [] := (toList_eq_nil_iff dq).mpr hz
    exact ⟨hwf, rfl, rfl, rfl, by
      rw [show popBackLoop pred dq 0 = dq from rfl, hnil]; rfl⟩
  | succ fuel ih =>
    intro dq hwf hf
    by_cases hcond : ¬ dq.isEmpty ∧ pred dq.backVal
    · have hsz : dq.size ≠ 0 := by
        intro hz
        exact (by simpa using hcond.1 : ¬ dq.isEmpty = true) ((isEmpty_iff_size dq hwf).mpr hz)
      have hne : dq.toList ≠ [] := fun h => hsz ((toList_eq_nil_iff dq).mp h)
      have hwf2 := popBack_wf dq hwf
      have hstep : popBackLoop pred dq (fuel + 1) = popBackLoop pred dq.popBack fuel := by
        rw [popBackLoop, if_pos hcond]
      obtain ⟨r1, r2, r3, r4, r5⟩ := ih dq.popBack hwf2
        (by rw [popBack_size dq hwf hsz]; omega)
      rw [hstep]
      refine ⟨r1, r2, r3, r4, ?_⟩
      rw [r5, popBack_toList dq hwf hsz, ← dropBackWhile_pop pred dq.toList hne]
      rw [← backVal_getLast dq hwf hne]
      exact hcond.2
    · have hstep : popBackLoop pred dq (fuel + 1) = dq := by
        rw [popBackLoop, if_neg hcond]
      rw [hstep]
      refine ⟨hwf, rfl, rfl, rfl, ?_⟩
      by_cases hemp : dq.isEmpty
      · have hnil : dq.toList = [] :=
          (toList_eq_nil_iff dq).mpr ((isEmpty_iff_size dq hwf).mp hemp)
        rw [hnil]
        rfl
      · have hne : dq.toList ≠ [] := by
          intro h
          exact hemp ((isEmpty_iff_size dq hwf).mpr ((toList_eq_nil_iff dq).mp h))
        have hlast : pred (dq.toList.getLast hne) = false := by
          rw [← backVal_getLast dq hwf hne]
          rcases Bool.eq_false_or_eq_true (pred dq.backVal) with h | h
          · exact absurd ⟨by simpa using hemp, h⟩ hcond
          · exact h
        exact (dropBackWhile_stop pred dq.toList hne hlast).symm

theorem popFrontLoop_spec (pred : ℕ → Bool) :
    ∀ fuel dq, DqWF dq → dq.size ≤ fuel →
      DqWF (popFrontLoop pred dq fuel) ∧
      (popFrontLoop pred dq fuel).capacity = dq.capacity ∧
      (popFrontLoop pred dq fuel).indices = dq.indices ∧
      (popFrontLoop pred dq fuel).toList = dq.toList.dropWhile pred := by
  intro fuel
  induction fuel with
  | zero =>
    intro dq hwf hf
    have hz : dq.size = 0 := by omega
    have hnil : dq.toList = [] := (toList_eq_nil_iff dq).mpr hz
    exact ⟨hwf, rfl, rfl, by
      rw [show popFrontLoop pred dq 0 = dq from rfl, hnil]; rfl⟩
  | succ fuel ih =>
    intro dq hwf hf
    by_cases hcond : ¬ dq.isEmpty ∧ pred dq.frontVal
    · have hsz : dq.size ≠ 0 := by
        intro hz
        exact (by simpa using hcond.1 : ¬ dq.isEmpty = true) ((isEmpty_iff_size dq hwf).mpr hz)
      have hne : dq.toList ≠ [] := fun h => hsz ((toList_eq_nil_iff dq).mp h)
      have hwf2 := popFront_wf dq hwf
      have hstep : popFrontLoop pred dq (fuel + 1) = popFrontLoop pred dq.popFront fuel := by
        rw [popFrontLoop, if_pos hcond]
      obtain ⟨r1, r2, r3, r4⟩ := ih dq.popFront hwf2
        (by rw [popFront_size dq hwf hsz]; omega)
      rw [hstep]
      refine ⟨r1, r2, r3, ?_⟩
      rw [r4, popFront_toList dq hwf hsz]
      cases hc : dq.toList with
      | nil => exact absurd hc hne
      | cons a tl =>
        have h1 : dq.toList.head? = some a := by rw [hc]; rfl
        have h2 : dq.toList.head? = some dq.frontVal := by
          rw [List.head?_eq_head hne, ← frontVal_head dq hwf hne]
        have ha : a = dq.frontVal := Option.some.inj (h1.symm.trans h2)
        have htrue : pred a = true := by rw [ha]; exact hcond.2
        simp [hc, List.dropWhile_cons, htrue]
    · have hstep : popFrontLoop pred dq (fuel + 1) = dq := by
        rw [popFrontLoop, if_neg hcond]
      rw [hstep]
      refine ⟨hwf, rfl, rfl, ?_⟩
      by_cases hemp : dq.isEmpty
      · have hnil : dq.toList = [] :=
          (toList_eq_nil_iff dq).mpr ((isEmpty_iff_size dq hwf).mp hemp)
        rw [hnil]
        rfl
      · have hne : dq.toList ≠ [] := by
          intro h
          exact hemp ((isEmpty_iff_size dq hwf).mpr ((toList_eq_nil_iff dq).mp h))
        cases hc : dq.toList with
        | nil => exact absurd hc hne
        | cons a tl =>
          have h1 : dq.toList.head? = some a := by rw [hc]; rfl
          have h2 : dq.toList.head? = some dq.frontVal := by
            rw [List.head?_eq_head hne, ← frontVal_head dq hwf hne]
          have ha : a = dq.frontVal := Option.some.inj (h1.symm.trans h2)
          have hfalse : pred a = false := by
            rw [ha]
            rcases Bool.eq_false_or_eq_true (pred dq.frontVal) with h | h
            · exact absurd ⟨by simpa using hemp, h⟩ hcond
            · exact h
          simp [hc, List.dropWhile_cons, hfalse]

theorem dqInsert_spec (pred : ℕ → Bool) (dq : CDeque) (i : ℕ) (h : DqWF dq)
    (hlen : (dropBackWhile pred dq.toList).length < dq.capacity - 1) :
    DqWF (dqInsert pred dq i) ∧ (dqInsert pred dq i).capacity = dq.capacity ∧
      (dqInsert pred dq i).toList = dropBackWhile pred dq.toList ++ [i] := by
  obtain ⟨r1, r2, r3, r4, r5⟩ := popBackLoop_spec pred dq.size dq h le_rfl
  set dq1 := popBackLoop pred dq dq.size with hdq1
  have hs1 : dq1.size < dq1.capacity - 1 := by
    have := toList_length dq1
    rw [r5] at this
    omega
  unfold dqInsert
  rw [← hdq1]
  refine ⟨pushBack_wf dq1 i r1, ?_, ?_⟩
  · show dq1.capacity = dq.capacity
    exact r2
  · rw [pushBack_toList dq1 i r1 hs1, r5]

/-! ### Monotonic deque invariant (stated for the max deque; the min deque
is the same invariant for the negated price function) -/

/-- Invariant of the max-candidates deque content L while the window is
lo..e-1: indices increase front to back, all lie in the window, prices
strictly decrease front to back, and every window position is dominated by
a stored index at-or-after it with a price at least as large. -/
def DqInv (p : ℕ → ℚ) (lo e : ℕ) (L : List ℕ) : Prop :=
  L.Chain' (fun a b => a < b) ∧ (∀ j ∈ L, lo ≤ j ∧ j < e) ∧
    (L.map p).Chain' (fun a b => b < a) ∧
    (∀ m, lo ≤ m → m < e → ∃ a ∈ L, m ≤ a ∧ p m ≤ p a)

theorem chain'_ltn_pairwise {l : List ℕ} :
    l.Chain' (fun a b => a < b) ↔ l.Pairwise (fun a b => a < b) := by
  have : IsTrans ℕ (fun a b => a < b) := ⟨fun a b c h1 h2 => lt_trans h1 h2⟩
  exact List.chain'_iff_pairwise

theorem chain'_gtq_pairwise {l : List ℚ} :
    l.Chain' (fun a b => b < a) ↔ l.Pairwise (fun a b => b < a) := by
  have : IsTrans ℚ (fun a b => b < a) := ⟨fun a b c h1 h2 => lt_trans h2 h1⟩
  exact List.chain'_iff_pairwise

theorem dqInv_length (p : ℕ → ℚ) (lo e : ℕ) (L : List ℕ) (h : DqInv p lo e L) :
    L.length ≤ e - lo := by
  obtain ⟨h1, h2, _, _⟩ := h
  have hnd : L.Nodup := (chain'_ltn_pairwise.mp h1).imp (fun {a b} h => Nat.ne_of_lt h)
  have hsub : L.toFinset ⊆ Finset.Ico lo e := by
    intro a ha
    rw [List.mem_toFinset] at ha
    rw [Finset.mem_Ico]
    exact h2 a ha
  have hcard := Finset.card_le_card hsub
  rw [List.toFinset_card_of_nodup hnd, Nat.card_Ico] at hcard
  exact hcard

theorem dqInv_nil (p : ℕ → ℚ) (lo : ℕ) : DqInv p lo lo [] := by
  refine ⟨List.chain'_nil, by simp, List.chain'_nil, ?_⟩
  intro m h1 h2
  omega

theorem dropBackWhile_getLast_not (pred : ℕ → Bool) (L : List ℕ)
    (hne : dropBackWhile pred L ≠ []) :
    pred ((dropBackWhile pred L).getLast hne) = false := by
  have h1 : (dropBackWhile pred L).getLast? = (L.reverse.dropWhile pred).head? := by
    unfold dropBackWhile
    exact List.getLast?_reverse _
  have h2 := List.head?_dropWhile_not pred L.reverse
  have h3 := List.getLast?_eq_getLast (dropBackWhile pred L) hne
  rw [h3] at h1
  rw [← h1] at h2
  simpa using h2

/-- Inserting the next index e preserves the deque invariant. -/
theorem dqInv_insert (p : ℕ → ℚ) (lo e : ℕ) (L : List ℕ) (h : DqInv p lo e L)
    (hle : lo ≤ e) :
    DqInv p lo (e + 1) (dropBackWhile (fun j => decide (p j ≤ p e)) L ++ [e]) := by
  obtain ⟨hchain, hmem, hpchain, hdom⟩ := h
  have hitn : IsTrans ℕ (fun a b => a < b) := ⟨fun a b c h1 h2 => lt_trans h1 h2⟩
  have hitq : IsTrans ℚ (fun a b => b < a) := ⟨fun a b c h1 h2 => lt_trans h2 h1⟩
  set pred : ℕ → Bool := fun j => decide (p j ≤ p e) with hpred
  set D := dropBackWhile pred L with hD
  have hsub : D.Sublist L := dropBackWhile_sublist pred L
  have hDmem : ∀ a ∈ D, a ∈ L := fun a ha => hsub.mem ha
  have hdropped : ∀ a ∈ L, a ∉ D → p a ≤ p e := by
    intro a haL haD
    have h1 : a ∈ L.reverse := List.mem_reverse.mpr haL
    rw [← List.takeWhile_append_dropWhile (p := pred) (l := L.reverse)] at h1
    rcases List.mem_append.mp h1 with h2 | h2
    · have := List.mem_takeWhile_imp h2
      simpa [hpred] using this
    · exfalso
      refine haD ?_
      rw [hD]
      unfold dropBackWhile
      exact List.mem_reverse.mpr h2
  refine ⟨?_, ?_, ?_, ?_⟩
  · rw [List.chain'_append]
    refine ⟨hchain.sublist hsub, List.chain'_singleton e, ?_⟩
    intro x hx y hy
    have hxm : x ∈ D := List.mem_of_mem_getLast? hx
    have hye : y = e := (by simpa using hy : e = y).symm
    subst hye
    exact (hmem x (hDmem x hxm)).2
  · intro j hj
    rcases List.mem_append.mp hj with h1 | h1
    · have := hmem j (hDmem j h1)
      omega
    · have : j = e := by simpa using h1
      omega
  · rw [List.map_append, List.chain'_append]
    refine ⟨(hpchain.sublist (hsub.map p)), by simp [List.chain'_singleton], ?_⟩
    intro x hx y hy
    have hym : y = p e := (by simpa using hy : p e = y).symm
    subst hym
    by_cases hDe : D = []
    · rw [hDe] at hx
      simp at hx
    · have hxval : x = p (D.getLast hDe) := by
        have e1 : (D.map p).getLast? = some (p (D.getLast hDe)) := by
          rw [List.getLast?_map, List.getLast?_eq_getLast D hDe]
          rfl
        rw [e1] at hx
        exact (by simpa using hx : p (D.getLast hDe) = x).symm
      have hfail := dropBackWhile_getLast_not pred L hDe
      have hnle : ¬ (p (D.getLast hDe) ≤ p e) := by simpa [hpred] using hfail
      rw [hxval]
      exact not_le.mp hnle
  · intro m hm1 hm2
    rcases Nat.lt_or_ge m e with hlt | hge
    · obtain ⟨a, haL, hma, hpa⟩ := hdom m hm1 hlt
      by_cases haD : a ∈ D
      · exact ⟨a, List.mem_append.mpr (Or.inl haD), hma, hpa⟩
      · exact ⟨e, List.mem_append.mpr (Or.inr (by simp)), by omega,
          le_trans hpa (hdropped a haL haD)⟩
    · have : m = e := by omega
      subst this
      exact ⟨m, List.mem_append.mpr (Or.inr (by simp)), le_rfl, le_rfl⟩

/-- Advancing the window front preserves the deque invariant. -/
theorem dqInv_dropFront (p : ℕ → ℚ) (lo e o : ℕ) (L : List ℕ) (h : DqInv p lo e L)
    (hlo : lo ≤ o + 1) :
    DqInv p (o + 1) e (L.dropWhile (fun j => decide (j ≤ o))) := by
  obtain ⟨hchain, hmem, hpchain, hdom⟩ := h
  have hitn : IsTrans ℕ (fun a b => a < b) := ⟨fun a b c h1 h2 => lt_trans h1 h2⟩
  have hitq : IsTrans ℚ (fun a b => b < a) := ⟨fun a b c h1 h2 => lt_trans h2 h1⟩
  set pred : ℕ → Bool := fun j => decide (j ≤ o) with hpred
  set D := L.dropWhile pred with hD
  have hsub : D.Sublist L := List.dropWhile_sublist pred
  have hDmem : ∀ a ∈ D, a ∈ L := fun a ha => hsub.mem ha
  have hgt : ∀ a ∈ D, o < a := by
    intro a ha
    cases hc : D with
    | nil => rw [hc] at ha; simp at ha
    | cons hd tl =>
      have hhd : pred hd = false := by
        have := List.head?_dropWhile_not pred L
        rw [← hD, hc] at this
        simpa using this
      have hhd2 : o < hd := by simpa [hpred] using hhd
      rw [hc] at ha
      rcases List.mem_cons.mp ha with rfl | hatl
      · exact hhd2
      · have hpw := chain'_ltn_pairwise.mp (hchain.sublist hsub)
        rw [hc] at hpw
        exact lt_trans hhd2 (List.rel_of_pairwise_cons hpw hatl)
  refine ⟨hchain.sublist hsub, ?_, hpchain.sublist (hsub.map p), ?_⟩
  · intro j hj
    have h1 := hmem j (hDmem j hj)
    have h2 := hgt j hj
    omega
  · intro m hm1 hm2
    obtain ⟨a, haL, hma, hpa⟩ := hdom m (by omega) hm2
    refine ⟨a, ?_, hma, hpa⟩
    have haO : o < a := by omega
    have h1 : a ∈ L.takeWhile pred ++ D := by
      rw [hD, List.takeWhile_append_dropWhile]
      exact haL
    rcases List.mem_append.mp h1 with h2 | h2
    · have := List.mem_takeWhile_imp h2
      simp [hpred] at this
      omega
    · exact h2

/-- The front of a deque satisfying the invariant attains the maximum of
the window. -/
theorem dqInv_front_max (p : ℕ → ℚ) (lo e : ℕ) (L : List ℕ) (h : DqInv p lo e L)
    (hne : L ≠ []) :
    (lo ≤ L.head hne ∧ L.head hne < e) ∧
      ∀ m, lo ≤ m → m < e → p m ≤ p (L.head hne) := by
  obtain ⟨hchain, hmem, hpchain, hdom⟩ := h
  refine ⟨hmem _ (List.head_mem hne), ?_⟩
  intro m hm1 hm2
  obtain ⟨a, haL, hma, hpa⟩ := hdom m hm1 hm2
  refine le_trans hpa ?_
  obtain ⟨hd, tl, hc⟩ : ∃ hd tl, L = hd :: tl := by
    cases L with
    | nil => exact absurd rfl hne
    | cons x xs => exact ⟨x, xs, rfl⟩
  have hh : L.head hne = hd := by
    have h1 : L.head? = some hd := by rw [hc]; rfl
    have h2 : L.head? = some (L.head hne) := List.head?_eq_head hne
    exact Option.some.inj (h2.symm.trans h1)
  rw [hh]
  rw [hc] at haL hpchain
  rcases List.mem_cons.mp haL with rfl | hatl
  · exact le_rfl
  · have hpw := chain'_gtq_pairwise.mp hpchain
    rw [List.map_cons] at hpw
    exact le_of_lt (List.rel_of_pairwise_cons hpw (List.mem_map_of_mem p hatl))

/-! ### Analyzer state invariant -/

/-- Combined deque invariant: well-formed circular deque with the fixed
capacity windowSize + 1, whose content satisfies the monotonic invariant. -/
def MaxDqS (p : ℕ → ℚ) (lo e : ℕ) (dq : CDeque) (w : ℕ) : Prop :=
  DqWF dq ∧ dq.capacity = w + 1 ∧ DqInv p lo e dq.toList

/-- Analyzer state invariant: exact running sums over the processed span
lo..e-1 and both deque invariants (the min deque is the max deque of the
negated prices). -/
def SWInv (p : ℕ → ℚ) (w lo e : ℕ) (st : SWState) : Prop :=
  st.sum = ((List.range' lo (e - lo)).map p).sum ∧
  st.sum_sq = (listSq ((List.range' lo (e - lo)).map p)).sum ∧
  MaxDqS p lo e st.max_dq w ∧ MaxDqS (fun j => -(p j)) lo e st.min_dq w

theorem createDeque_wf (c : ℕ) (hc : 1 ≤ c) : DqWF (createDeque c) :=
  ⟨by simp [createDeque], by simp [createDeque]; omega, by simp [createDeque]; omega, hc⟩

theorem createDeque_toList (c : ℕ) (hc : 1 ≤ c) : (createDeque c).toList = [] := by
  rw [toList_eq_nil_iff]
  show (0 + c - 0) % c = 0
  simp

theorem swInv_init (p : ℕ → ℚ) (w : ℕ) (hw : 1 ≤ w) : SWInv p w 0 0 (initState w) := by
  refine ⟨by simp [initState], by simp [initState, listSq], ?_, ?_⟩ <;>
    exact ⟨createDeque_wf (w + 1) (by omega), rfl,
      by show DqInv _ 0 0 (createDeque (w + 1)).toList
         rw [createDeque_toList (w + 1) (by omega)]
         exact dqInv_nil _ 0⟩

theorem maxDqS_insert (p : ℕ → ℚ) (lo e : ℕ) (dq : CDeque) (w : ℕ)
    (h : MaxDqS p lo e dq w) (hle : lo ≤ e) (hb : e - lo ≤ w - 1) (hw : 1 ≤ w) :
    MaxDqS p lo (e + 1) (dqInsert (fun j => decide (p j ≤ p e)) dq e) w := by
  obtain ⟨hwf, hcap, hinv⟩ := h
  have hlen : (dropBackWhile (fun j => decide (p j ≤ p e)) dq.toList).length <
      dq.capacity - 1 := by
    have h1 := dropBackWhile_length (fun j => decide (p j ≤ p e)) dq.toList
    have h2 := dqInv_length p lo e dq.toList hinv
    omega
  obtain ⟨r1, r2, r3⟩ := dqInsert_spec _ dq e hwf hlen
  exact ⟨r1, by rw [r2, hcap], by rw [r3]; exact dqInv_insert p lo e dq.toList hinv hle⟩

theorem maxDqS_dropFront (p : ℕ → ℚ) (lo e o : ℕ) (dq : CDeque) (w : ℕ)
    (h : MaxDqS p lo e dq w) (hlo : lo ≤ o + 1) :
    MaxDqS p (o + 1) e (popFrontLoop (fun j => decide (j ≤ o)) dq dq.size) w := by
  obtain ⟨hwf, hcap, hinv⟩ := h
  obtain ⟨r1, r2, r3, r4⟩ := popFrontLoop_spec _ dq.size dq hwf le_rfl
  exact ⟨r1, by rw [r2, hcap], by rw [r4]; exact dqInv_dropFront p lo e o dq.toList hinv hlo⟩

theorem minPredFW_eq (p : ℕ → ℚ) (e : ℕ) :
    (fun j => decide (p e ≤ p j)) =
      (fun j => decide ((fun k => -(p k)) j ≤ (fun k => -(p k)) e)) := by
  funext j
  simp only [decide_eq_decide]
  constructor <;> intro h <;> linarith

theorem range'_map_sum_succ (p : ℕ → ℚ) (lo e : ℕ) (h : lo ≤ e) :
    ((List.range' lo (e + 1 - lo)).map p).sum =
      ((List.range' lo (e - lo)).map p).sum + p e := by
  rw [show e + 1 - lo = (e - lo) + 1 by omega]
  have hap := List.range'_append lo (e - lo) 1 1
  simp only [one_mul, List.range'_one] at hap
  rw [show lo + (e - lo) = e by omega] at hap
  rw [show (e - lo) + 1 = 1 + (e - lo) by omega, ← hap, List.map_append, List.sum_append]
  simp

theorem range'_map_sq_sum_succ (p : ℕ → ℚ) (lo e : ℕ) (h : lo ≤ e) :
    (listSq ((List.range' lo (e + 1 - lo)).map p)).sum =
      (listSq ((List.range' lo (e - lo)).map p)).sum + p e * p e := by
  rw [show e + 1 - lo = (e - lo) + 1 by omega]
  have hap := List.range'_append lo (e - lo) 1 1
  simp only [one_mul, List.range'_one] at hap
  rw [show lo + (e - lo) = e by omega] at hap
  rw [show (e - lo) + 1 = 1 + (e - lo) by omega, ← hap, List.map_append]
  unfold listSq
  rw [List.map_append, List.sum_append]
  simp

theorem swInv_firstStep (p : ℕ → ℚ) (w e : ℕ) (st : SWState) (h : SWInv p w 0 e st)
    (he : e < w) (hw : 1 ≤ w) : SWInv p w 0 (e + 1) (firstWindowStep p st e) := by
  obtain ⟨hs, hsq, hmax, hmin⟩ := h
  refine ⟨?_, ?_, ?_, ?_⟩
  · show st.sum + p e = _
    rw [hs]
    have := (range'_map_sum_succ p 0 e (by omega)).symm
    simpa using this
  · show st.sum_sq + p e * p e = _
    rw [hsq]
    have := (range'_map_sq_sum_succ p 0 e (by omega)).symm
    simpa using this
  · exact maxDqS_insert p 0 e st.max_dq w hmax (by omega) (by omega) hw
  · have h2 := maxDqS_insert (fun k => -(p k)) 0 e st.min_dq w hmin (by omega) (by omega) hw
    show MaxDqS _ 0 (e + 1) (dqInsert (fun j => decide (p e ≤ p j)) st.min_dq e) w
    rw [minPredFW_eq p e]
    exact h2

theorem firstWindow_prefix_inv (p : ℕ → ℚ) (w : ℕ) (hw : 1 ≤ w) :
    ∀ k, k ≤ w → SWInv p w 0 k ((List.range k).foldl (firstWindowStep p) (initState w)) := by
  intro k
  induction k with
  | zero => intro _; exact swInv_init p w hw
  | succ k ih =>
    intro hk
    rw [List.range_succ, List.foldl_append, List.foldl_cons, List.foldl_nil]
    exact swInv_firstStep p w k _ (ih (by omega)) (by omega) hw

theorem firstWindow_inv (p : ℕ → ℚ) (w : ℕ) (hw : 1 ≤ w) :
    SWInv p w 0 w (firstWindow p w) :=
  firstWindow_prefix_inv p w hw w le_rfl

/-! ### Per-window specification -/

/-- The raw prices of the window starting at idx. -/
def windowList (p : ℕ → ℚ) (w idx : ℕ) : List ℚ := (List.range' idx w).map p

/-- The specification record for one window: true extrema, exact mean, and
the classification on the window boundary prices and exact statistics. -/
def wspec (p : ℕ → ℚ) (w idx : ℕ) : WRec :=
  ⟨listMax (windowList p w idx), listMin (windowList p w idx),
   (windowList p w idx).sum / (w : ℚ),
   classifyPattern (p idx) (p (idx + w - 1))
     ((listSq (windowList p w idx)).sum / (w : ℚ) -
       ((windowList p w idx).sum / (w : ℚ)) * ((windowList p w idx).sum / (w : ℚ)))
     ((windowList p w idx).sum / (w : ℚ))⟩

theorem windowList_ne_nil (p : ℕ → ℚ) (w idx : ℕ) (hw : 1 ≤ w) :
    windowList p w idx ≠ [] := by
  unfold windowList
  intro h
  have h2 := congrArg List.length h
  simp at h2
  omega

theorem mkWRec_spec (p : ℕ → ℚ) (w idx : ℕ) (st : SWState) (hw : 1 ≤ w)
    (h : SWInv p w idx (idx + w) st) :
    mkWRec p w st idx (idx + w - 1) = wspec p w idx := by
  obtain ⟨hs, hsq, hmax, hmin⟩ := h
  obtain ⟨hwf1, hcap1, hinv1⟩ := hmax
  obtain ⟨hwf2, hcap2, hinv2⟩ := hmin
  have hsub : idx + w - idx = w := by omega
  rw [hsub] at hs hsq
  have hne1 : st.max_dq.toList ≠ [] := by
    obtain ⟨a, ha, -, -⟩ := hinv1.2.2.2 idx le_rfl (by omega)
    intro hnil
    rw [hnil] at ha
    simp at ha
  have hne2 : st.min_dq.toList ≠ [] := by
    obtain ⟨a, ha, -, -⟩ := hinv2.2.2.2 idx le_rfl (by omega)
    intro hnil
    rw [hnil] at ha
    simp at ha
  have hmaxv : p st.max_dq.frontVal = listMax (windowList p w idx) := by
    rw [frontVal_head st.max_dq hwf1 hne1]
    obtain ⟨⟨hb1, hb2⟩, hdomf⟩ := dqInv_front_max p idx (idx + w) _ hinv1 hne1
    apply le_antisymm
    · apply le_listMax
      unfold windowList
      exact List.mem_map_of_mem p (List.mem_range'_1.mpr ⟨hb1, by omega⟩)
    · have hmm := listMax_mem (windowList p w idx) (windowList_ne_nil p w idx hw)
      unfold windowList at hmm ⊢
      obtain ⟨m0, hm0, heq⟩ := List.mem_map.mp hmm
      rw [← heq]
      have hbm := List.mem_range'_1.mp hm0
      exact hdomf m0 hbm.1 (by omega)
  have hminv : p st.min_dq.frontVal = listMin (windowList p w idx) := by
    rw [frontVal_head st.min_dq hwf2 hne2]
    obtain ⟨⟨hb1, hb2⟩, hdomf⟩ := dqInv_front_max (fun k => -(p k)) idx (idx + w) _ hinv2 hne2
    apply le_antisymm
    · have hmm := listMin_mem (windowList p w idx) (windowList_ne_nil p w idx hw)
      unfold windowList at hmm ⊢
      obtain ⟨m0, hm0, heq⟩ := List.mem_map.mp hmm
      rw [← heq]
      have hbm := List.mem_range'_1.mp hm0
      have hneg := hdomf m0 hbm.1 (by omega)
      simp only at hneg
      linarith
    · apply listMin_le
      unfold windowList
      exact List.mem_map_of_mem p (List.mem_range'_1.mpr ⟨hb1, by omega⟩)
  unfold mkWRec wspec
  rw [hs, hsq, hmaxv, hminv]
  rfl

theorem window_sum_slide (p : ℕ → ℚ) (w i : ℕ) (hw : 1 ≤ w) (hi : 1 ≤ i) :
    ((List.range' i w).map p).sum =
      ((List.range' (i - 1) w).map p).sum - p (i - 1) + p (i + w - 1) := by
  have h1 : List.range' (i - 1) w = (i - 1) :: List.range' i (w - 1) := by
    rw [show w = (w - 1) + 1 by omega, List.range'_succ, show i - 1 + 1 = i by omega,
      show (w - 1) + 1 - 1 = w - 1 by omega]
  have h2 : List.range' i w = List.range' i (w - 1) ++ [i + (w - 1)] := by
    have hap := List.range'_append i (w - 1) 1 1
    simp only [one_mul, List.range'_one] at hap
    rw [show 1 + (w - 1) = w by omega] at hap
    exact hap.symm
  rw [h1, h2]
  simp only [List.map_append, List.sum_append, List.map_cons, List.sum_cons, List.map_nil,
    List.sum_nil]
  rw [show i + (w - 1) = i + w - 1 by omega]
  ring

theorem window_sq_sum_slide (p : ℕ → ℚ) (w i : ℕ) (hw : 1 ≤ w) (hi : 1 ≤ i) :
    (listSq ((List.range' i w).map p)).sum =
      (listSq ((List.range' (i - 1) w).map p)).sum - p (i - 1) * p (i - 1) +
        p (i + w - 1) * p (i + w - 1) := by
  have h1 : List.range' (i - 1) w = (i - 1) :: List.range' i (w - 1) := by
    rw [show w = (w - 1) + 1 by omega, List.range'_succ, show i - 1 + 1 = i by omega,
      show (w - 1) + 1 - 1 = w - 1 by omega]
  have h2 : List.range' i w = List.range' i (w - 1) ++ [i + (w - 1)] := by
    have hap := List.range'_append i (w - 1) 1 1
    simp only [one_mul, List.range'_one] at hap
    rw [show 1 + (w - 1) = w by omega] at hap
    exact hap.symm
  unfold listSq
  rw [h1, h2]
  simp only [List.map_append, List.sum_append, List.map_cons, List.sum_cons, List.map_nil,
    List.sum_nil]
  rw [show i + (w - 1) = i + w - 1 by omega]
  ring

theorem swInv_slideStep (p : ℕ → ℚ) (w i : ℕ) (st : SWState) (recs : List WRec)
    (hw : 1 ≤ w) (hi : 1 ≤ i) (h : SWInv p w (i - 1) (i - 1 + w) st) :
    SWInv p w i (i + w) (slideStep p w (st, recs) i).1 ∧
      (slideStep p w (st, recs) i).2 = recs ++ [wspec p w i] := by
  obtain ⟨hs, hsq, hmax, hmin⟩ := h
  have hsub : i - 1 + w - (i - 1) = w := by omega
  rw [hsub] at hs hsq
  have hmax1 := maxDqS_dropFront p (i - 1) (i - 1 + w) (i - 1) st.max_dq w hmax (by omega)
  have hmin1 := maxDqS_dropFront (fun k => -(p k)) (i - 1) (i - 1 + w) (i - 1) st.min_dq w
    hmin (by omega)
  rw [show i - 1 + 1 = i by omega] at hmax1 hmin1
  have hmax2 := maxDqS_insert p i (i + w - 1) _ w
    (by rw [show i + w - 1 = i - 1 + w by omega]; exact hmax1) (by omega) (by omega) hw
  have hmin2 := maxDqS_insert (fun k => -(p k)) i (i + w - 1) _ w
    (by rw [show i + w - 1 = i - 1 + w by omega]; exact hmin1) (by omega) (by omega) hw
  rw [show i + w - 1 + 1 = i + w by omega] at hmax2 hmin2
  have hswinv : SWInv p w i (i + w) (slideStep p w (st, recs) i).1 := by
    refine ⟨?_, ?_, ?_, ?_⟩
    · show st.sum - p (i - 1) + p (i + w - 1) = _
      rw [hs, show i + w - i = w by omega]
      exact (window_sum_slide p w i hw hi).symm
    · show st.sum_sq - p (i - 1) * p (i - 1) + p (i + w - 1) * p (i + w - 1) = _
      rw [hsq, show i + w - i = w by omega]
      exact (window_sq_sum_slide p w i hw hi).symm
    · exact hmax2
    · show MaxDqS _ i (i + w)
        (dqInsert (fun j => decide (p (i + w - 1) ≤ p j))
          (popFrontLoop (fun j => decide (j ≤ i - 1)) st.min_dq st.min_dq.size)
          (i + w - 1)) w
      rw [minPredFW_eq p (i + w - 1)]
      exact hmin2
  refine ⟨hswinv, ?_⟩
  show recs ++ [mkWRec p w (slideStep p w (st, recs) i).1 i (i + w - 1)] =
    recs ++ [wspec p w i]
  rw [mkWRec_spec p w i _ hw hswinv]

theorem slidingLoop_spec (p : ℕ → ℚ) (w : ℕ) (hw : 1 ≤ w) :
    ∀ num, 1 ≤ num →
      SWInv p w (num - 1) (num - 1 + w) (slidingLoop p w num).1 ∧
      (slidingLoop p w num).2 = (List.range num).map (wspec p w) := by
  intro num
  induction num with
  | zero => intro h; omega
  | succ num ih =>
    intro _
    rcases Nat.eq_zero_or_pos num with rfl | hnum
    · constructor
      · show SWInv p w 0 (0 + w) (firstWindow p w)
        rw [Nat.zero_add]
        exact firstWindow_inv p w hw
      · show [mkWRec p w (firstWindow p w) 0 (w - 1)] = _
        have h0 := mkWRec_spec p w 0 (firstWindow p w) hw
          (by rw [Nat.zero_add]; exact firstWindow_inv p w hw)
        rw [show (0 : ℕ) + w - 1 = w - 1 by omega] at h0
        rw [h0]
        rfl
    · have hap := List.range'_append 1 (num - 1) 1 1
      simp only [one_mul, List.range'_one] at hap
      rw [show 1 + (num - 1) = num by omega] at hap
      have hunf : slidingLoop p w (num + 1) =
          slideStep p w (slidingLoop p w num) num := by
        show (List.range' 1 (num + 1 - 1)).foldl (slideStep p w)
            (firstWindow p w, [mkWRec p w (firstWindow p w) 0 (w - 1)]) = _
        rw [show num + 1 - 1 = num from rfl, ← hap, List.foldl_append, List.foldl_cons,
          List.foldl_nil]
        rfl
      obtain ⟨ih1, ih2⟩ := ih hnum
      have hstep := swInv_slideStep p w num (slidingLoop p w num).1
        (slidingLoop p w num).2 hw hnum ih1
      constructor
      · rw [hunf]
        exact hstep.1
      · rw [hunf]
        have h2 := hstep.2
        rw [h2, ih2, List.range_succ, List.map_append]
        rfl

/-! ### Analyzer characterization and window claims -/

theorem analyzeSlidingWindow_spec (ps : List DVal) (w : ℕ)
    (hfin : ps.all DVal.isFinite) (hlen : 1 ≤ ps.length)
    (hmax : ps.length ≤ MAX_ARRAY_SIZE) (hw1 : 1 ≤ w) (hwn : w ≤ ps.length) :
    analyzeSlidingWindow (some ps) w true true true true =
      (0, some ⟨(List.range (ps.length - w + 1)).map
          (wspec (fun k => (ps.map DVal.toRat).getD k 0) w),
        ps.length - w + 1, w⟩) := by
  simp only [analyzeSlidingWindow]
  rw [if_neg (by simp),
    if_neg (by push_neg; exact ⟨by omega, hmax, by omega, hwn⟩),
    if_neg (by simp [hfin]), if_neg (by simp), if_neg (by simp), if_neg (by simp)]
  rw [(slidingLoop_spec (fun k => (ps.map DVal.toRat).getD k 0) w hw1
    (ps.length - w + 1) (by omega)).2]

theorem mul_length_le_sum (l : List ℚ) (c : ℚ) (h : ∀ x ∈ l, c ≤ x) :
    c * (l.length : ℚ) ≤ l.sum := by
  induction l with
  | nil => simp
  | cons x xs ih =>
    simp only [List.length_cons, List.sum_cons]
    push_cast
    have h1 := h x (by simp)
    have h2 := ih (fun y hy => h y (by simp [hy]))
    nlinarith [h1, h2]

theorem sum_le_mul_length (l : List ℚ) (c : ℚ) (h : ∀ x ∈ l, x ≤ c) :
    l.sum ≤ c * (l.length : ℚ) := by
  induction l with
  | nil => simp
  | cons x xs ih =>
    simp only [List.length_cons, List.sum_cons]
    push_cast
    have h1 := h x (by simp)
    have h2 := ih (fun y hy => h y (by simp [hy]))
    nlinarith [h1, h2]

theorem windowList_length (p : ℕ → ℚ) (w idx : ℕ) : (windowList p w idx).length = w := by
  unfold windowList
  simp

theorem listMin_le_avg (l : List ℚ) (hne : l ≠ []) :
    listMin l ≤ l.sum / (l.length : ℚ) ∧ l.sum / (l.length : ℚ) ≤ listMax l := by
  have hpos : 0 < ((l.length : ℚ)) := by
    have : 0 < l.length := List.length_pos.mpr hne
    exact_mod_cast this
  constructor
  · rw [le_div_iff₀ hpos]
    exact mul_length_le_sum _ _ (fun x hx => listMin_le _ x hx)
  · rw [div_le_iff₀ hpos]
    exact sum_le_mul_length _ _ (fun x hx => le_listMax _ x hx)

/-- C6: for every valid price sequence of length n and window size w with
1 ≤ w ≤ n, analyzeSlidingWindow succeeds and produces exactly n - w + 1
WindowStats records indexed by window start; it fails with status -2 and no
result whenever w = 0 or w > n. -/
theorem c6_window_count :
    (∀ (ps : List DVal) (w : ℕ), ps.all DVal.isFinite → 1 ≤ ps.length →
      ps.length ≤ MAX_ARRAY_SIZE → 1 ≤ w → w ≤ ps.length →
      ∃ r : WindowResult,
        analyzeSlidingWindow (some ps) w true true true true = (0, some r) ∧
        r.windows.length = ps.length - w + 1 ∧ r.num_windows = ps.length - w + 1 ∧
        r.window_size = w) ∧
    (∀ (ps : List DVal) (w : ℕ) (a1 a2 a3 : Bool), w = 0 ∨ ps.length < w →
      analyzeSlidingWindow (some ps) w true a1 a2 a3 = (-2, none)) := by
  constructor
  · intro ps w hfin hlen hmax hw1 hwn
    refine ⟨_, analyzeSlidingWindow_spec ps w hfin hlen hmax hw1 hwn, ?_, rfl, rfl⟩
    simp
  · intro ps w a1 a2 a3 h
    simp only [analyzeSlidingWindow]
    rw [if_neg (by simp), if_pos ?_]
    rcases h with h | h
    · exact Or.inr (Or.inr (Or.inl h))
    · exact Or.inr (Or.inr (Or.inr h))

/-- Witness for c6_window_count. -/
theorem c6_window_count_witness :
    (([DVal.fin 1, DVal.fin 2] : List DVal).all DVal.isFinite) ∧
    (∃ r : WindowResult,
      analyzeSlidingWindow (some [DVal.fin 1, DVal.fin 2]) 2 true true true true =
        (0, some r) ∧
      r.windows.length = ([DVal.fin 1, DVal.fin 2] : List DVal).length - 2 + 1 ∧
      r.num_windows = ([DVal.fin 1, DVal.fin 2] : List DVal).length - 2 + 1 ∧
      r.window_size = 2) ∧
    analyzeSlidingWindow (some [DVal.fin 1, DVal.fin 2]) 0 true true true true =
      (-2, none) :=
  ⟨by decide,
   c6_window_count.1 [DVal.fin 1, DVal.fin 2] 2 (by decide) (by decide) (by decide)
     (by decide) (by decide),
   c6_window_count.2 [DVal.fin 1, DVal.fin 2] 0 true true true (Or.inl rfl)⟩

theorem analyze_windows_getD (ps : List DVal) (w : ℕ) (r : WindowResult)
    (hfin : ps.all DVal.isFinite) (hlen : 1 ≤ ps.length)
    (hmax : ps.length ≤ MAX_ARRAY_SIZE) (hw1 : 1 ≤ w) (hwn : w ≤ ps.length)
    (hr : analyzeSlidingWindow (some ps) w true true true true = (0, some r))
    (idx : ℕ) (hidx : idx < r.num_windows) :
    r.windows.getD idx default =
      wspec (fun k => (ps.map DVal.toRat).getD k 0) w idx ∧
    r.num_windows = ps.length - w + 1 := by
  have hspec := analyzeSlidingWindow_spec ps w hfin hlen hmax hw1 hwn
  rw [hr] at hspec
  have hreq : r = ⟨(List.range (ps.length - w + 1)).map
      (wspec (fun k => (ps.map DVal.toRat).getD k 0) w), ps.length - w + 1, w⟩ := by
    have := (Prod.mk.injEq _ _ _ _).mp hspec
    exact Option.some.inj this.2
  subst hreq
  refine ⟨?_, rfl⟩
  simp only at hidx
  rw [List.getD_eq_getElem _ _ (by simpa using hidx)]
  simp

/-- C3: every produced WindowStats satisfies min ≤ avg ≤ max, the stored
min and max occur in that window (they are its true extrema), and every raw
price of the window lies in the closed interval from min to max. -/
theorem c3_window_stats (ps : List DVal) (w : ℕ) (r : WindowResult)
    (hfin : ps.all DVal.isFinite) (hlen : 1 ≤ ps.length)
    (hmax : ps.length ≤ MAX_ARRAY_SIZE) (hw1 : 1 ≤ w) (hwn : w ≤ ps.length)
    (hr : analyzeSlidingWindow (some ps) w true true true true = (0, some r))
    (idx : ℕ) (hidx : idx < r.num_windows) :
    (r.windows.getD idx default).min ≤ (r.windows.getD idx default).avg ∧
    (r.windows.getD idx default).avg ≤ (r.windows.getD idx default).max ∧
    (r.windows.getD idx default).min ∈
      windowList (fun k => (ps.map DVal.toRat).getD k 0) w idx ∧
    (r.windows.getD idx default).max ∈
      windowList (fun k => (ps.map DVal.toRat).getD k 0) w idx ∧
    (∀ x ∈ windowList (fun k => (ps.map DVal.toRat).getD k 0) w idx,
      (r.windows.getD idx default).min ≤ x ∧ x ≤ (r.windows.getD idx default).max) := by
  obtain ⟨hrec, -⟩ :=
    analyze_windows_getD ps w r hfin hlen hmax hw1 hwn hr idx hidx
  rw [hrec]
  set p := fun k => (ps.map DVal.toRat).getD k 0 with hp
  have hne := windowList_ne_nil p w idx hw1
  have hwl := windowList_length p w idx
  have havg := listMin_le_avg (windowList p w idx) hne
  rw [hwl] at havg
  refine ⟨havg.1, havg.2, ?_, ?_, ?_⟩
  · exact listMin_mem _ hne
  · exact listMax_mem _ hne
  · exact fun x hx => ⟨listMin_le _ x hx, le_listMax _ x hx⟩

/-- Witness for c3_window_stats at a concrete sequence and window. -/
theorem c3_window_stats_witness :
    (analyzeSlidingWindow (some [DVal.fin 1, DVal.fin 4, DVal.fin 2]) 2 true true true true
        = (0, some ⟨(List.range 2).map
            (wspec (fun k => ([DVal.fin 1, DVal.fin 4, DVal.fin 2].map DVal.toRat).getD k 0) 2),
          2, 2⟩)) ∧
    (0 < (WindowResult.mk ((List.range 2).map
        (wspec (fun k => ([DVal.fin 1, DVal.fin 4, DVal.fin 2].map DVal.toRat).getD k 0) 2))
        2 2).num_windows) ∧
    ((WindowResult.mk ((List.range 2).map
        (wspec (fun k => ([DVal.fin 1, DVal.fin 4, DVal.fin 2].map DVal.toRat).getD k 0) 2))
        2 2).windows.getD 0 default).min ≤
      ((WindowResult.mk ((List.range 2).map
        (wspec (fun k => ([DVal.fin 1, DVal.fin 4, DVal.fin 2].map DVal.toRat).getD k 0) 2))
        2 2).windows.getD 0 default).avg :=
  ⟨analyzeSlidingWindow_spec [DVal.fin 1, DVal.fin 4, DVal.fin 2] 2 (by decide) (by decide)
      (by decide) (by decide) (by decide),
   by decide,
   (c3_window_stats [DVal.fin 1, DVal.fin 4, DVal.fin 2] 2 _ (by decide) (by decide)
      (by decide) (by decide) (by decide)
      (analyzeSlidingWindow_spec [DVal.fin 1, DVal.fin 4, DVal.fin 2] 2 (by decide) (by decide)
        (by decide) (by decide) (by decide)) 0 (by decide)).1⟩

/-! ### Pattern classification claims -/

/-- The change-percentage formula exactly as the specification document words
it: the absolute difference divided by the (signed) first price.  This is a
transcription of the spec text, kept separate so it can be compared with the
code's classifyPattern, which computes fabs of the whole quotient. -/
def specChangePct (first last : ℚ) : ℚ := |last - first| / first

/-- classifyPattern as the specification's formula reads literally, using
specChangePct in place of the code's fabs((last-first)/first). -/
def specClassify (first last variance mean : ℚ) : Pattern :=
  if specChangePct first last > 1/20 ∧ last > first then .bullish
  else if specChangePct first last > 1/20 ∧ last < first then .bearish
  else if variance > mean ^ 2 / 100 then .volatile
  else .stable

theorem cv_sqrt_bridge (v m : ℚ) (hv : 0 ≤ v) (hm : m ≠ 0) :
    v > m ^ 2 / 100 ↔ Real.sqrt (v : ℝ) / |(m : ℝ)| > 1 / 10 := by
  have hm0 : ((m : ℝ)) ≠ 0 := by exact_mod_cast hm
  have hma : (0 : ℝ) < |(m : ℝ)| := abs_pos.mpr hm0
  have hv0 : (0 : ℝ) ≤ ((v : ℚ) : ℝ) := by exact_mod_cast hv
  rw [gt_iff_lt, gt_iff_lt, lt_div_iff₀ hma,
    show (1 / 10 : ℝ) * |(m : ℝ)| = |(m : ℝ)| / 10 by ring,
    Real.lt_sqrt (by positivity), div_pow, sq_abs,
    show ((10 : ℝ)) ^ 2 = 100 by norm_num]
  constructor
  · intro h
    exact_mod_cast h
  · intro h
    exact_mod_cast h

theorem classifyPattern_cases (f l v m : ℚ) (hf : f ≠ 0) :
    (classifyPattern f l v m = .bullish ↔ |(l - f) / f| > 1/20 ∧ l > f) ∧
    (classifyPattern f l v m = .bearish ↔ |(l - f) / f| > 1/20 ∧ l < f) ∧
    (classifyPattern f l v m = .volatile ↔
      ¬(|(l - f) / f| > 1/20 ∧ l > f) ∧ ¬(|(l - f) / f| > 1/20 ∧ l < f) ∧
        v > m ^ 2 / 100) ∧
    (classifyPattern f l v m = .stable ↔
      ¬(|(l - f) / f| > 1/20 ∧ l > f) ∧ ¬(|(l - f) / f| > 1/20 ∧ l < f) ∧
        ¬(v > m ^ 2 / 100)) := by
  have he : (f = 0 ∧ l ≠ f ∨ f ≠ 0 ∧ |(l - f) / f| > 1/20) ↔ |(l - f) / f| > 1/20 := by
    constructor
    · rintro (⟨h0, -⟩ | ⟨-, h⟩)
      · exact absurd h0 hf
      · exact h
    · intro h
      exact Or.inr ⟨hf, h⟩
  simp only [classifyPattern, he]
  split_ifs with h1 h2 h3 <;> refine ⟨?_, ?_, ?_, ?_⟩ <;> simp_all <;>
    exact le_of_lt h1.2

theorem classifyPattern_zero (l v m : ℚ) :
    classifyPattern 0 l v m =
      if 0 < l then .bullish
      else if l < 0 then .bearish
      else if v > m ^ 2 / 100 then .volatile
      else .stable := by
  unfold classifyPattern
  by_cases hl : 0 < l
  · rw [if_pos ⟨Or.inl ⟨rfl, ne_of_gt hl⟩, hl⟩, if_pos hl]
  · rw [if_neg (fun h => hl h.2), if_neg hl]
    by_cases hl2 : l < 0
    · rw [if_pos ⟨Or.inl ⟨rfl, ne_of_lt hl2⟩, hl2⟩, if_pos hl2]
    · rw [if_neg (fun h => hl2 h.2), if_neg hl2]

theorem classifyPattern_zero_first (l v m : ℚ) :
    (classifyPattern 0 l v m = .bullish ↔ 0 < l) ∧
    (classifyPattern 0 l v m = .bearish ↔ l < 0) ∧
    (classifyPattern 0 0 v m = .volatile ↔ v > m ^ 2 / 100) ∧
    (classifyPattern 0 0 v m = .stable ↔ ¬(v > m ^ 2 / 100)) := by
  refine ⟨?_, ?_, ?_, ?_⟩
  · rw [classifyPattern_zero]
    constructor
    · intro hc
      by_cases hl : 0 < l
      · exact hl
      · rw [if_neg hl] at hc
        split_ifs at hc <;> simp at hc
    · intro hl
      rw [if_pos hl]
  · rw [classifyPattern_zero]
    constructor
    · intro hc
      by_cases hl : l < 0
      · exact hl
      · by_cases h0 : 0 < l
        · rw [if_pos h0] at hc
          simp at hc
        · rw [if_neg h0, if_neg hl] at hc
          split_ifs at hc <;> simp at hc
    · intro hl
      rw [if_neg (lt_asymm hl), if_pos hl]
  · rw [classifyPattern_zero, if_neg (lt_irrefl 0), if_neg (lt_irrefl 0)]
    split_ifs with h3 <;> simp [h3]
  · rw [classifyPattern_zero, if_neg (lt_irrefl 0), if_neg (lt_irrefl 0)]
    split_ifs with h3 <;> simp [h3]

/-- C4: the stored pattern of every window is classifyPattern applied to the
window's first and last price and its exact variance and mean; for a nonzero
first price the decision tree tests change_pct = |(last-first)/first| > 1/20
with the sign of last - first, then (encoded by its square)
cv = sqrt(variance)/|mean| > 1/10; for first = 0 the IEEE change_pct is +Inf
when last differs from first (the pattern is bullish or bearish by the sign
of last) and NaN when last = first (the cv branch decides); all comparisons
are strict, so change_pct exactly 1/20 never yields bullish or bearish and
cv exactly 1/10 never yields volatile; the code's change_pct is
fabs((last-first)/first) = |last-first|/|first|, which matches the spec
formula |last-first|/first whenever first > 0. -/
theorem c4_pattern_rules :
    (∀ (ps : List DVal) (w : ℕ) (r : WindowResult),
      ps.all DVal.isFinite → 1 ≤ ps.length → ps.length ≤ MAX_ARRAY_SIZE →
      1 ≤ w → w ≤ ps.length →
      analyzeSlidingWindow (some ps) w true true true true = (0, some r) →
      ∀ idx, idx < r.num_windows →
        (r.windows.getD idx default).pattern =
          classifyPattern ((ps.map DVal.toRat).getD idx 0)
            ((ps.map DVal.toRat).getD (idx + w - 1) 0)
            ((listSq (windowList (fun k => (ps.map DVal.toRat).getD k 0) w idx)).sum /
                (w : ℚ) -
              ((windowList (fun k => (ps.map DVal.toRat).getD k 0) w idx).sum / (w : ℚ)) *
                ((windowList (fun k => (ps.map DVal.toRat).getD k 0) w idx).sum / (w : ℚ)))
            ((windowList (fun k => (ps.map DVal.toRat).getD k 0) w idx).sum / (w : ℚ))) ∧
    (∀ f l v m : ℚ, f ≠ 0 →
      (classifyPattern f l v m = .bullish ↔ |(l - f) / f| > 1/20 ∧ l > f) ∧
      (classifyPattern f l v m = .bearish ↔ |(l - f) / f| > 1/20 ∧ l < f) ∧
      (classifyPattern f l v m = .volatile ↔
        ¬(|(l - f) / f| > 1/20 ∧ l > f) ∧ ¬(|(l - f) / f| > 1/20 ∧ l < f) ∧
          v > m ^ 2 / 100) ∧
      (classifyPattern f l v m = .stable ↔
        ¬(|(l - f) / f| > 1/20 ∧ l > f) ∧ ¬(|(l - f) / f| > 1/20 ∧ l < f) ∧
          ¬(v > m ^ 2 / 100))) ∧
    (∀ l v m : ℚ,
      (classifyPattern 0 l v m = .bullish ↔ 0 < l) ∧
      (classifyPattern 0 l v m = .bearish ↔ l < 0) ∧
      (classifyPattern 0 0 v m = .volatile ↔ v > m ^ 2 / 100) ∧
      (classifyPattern 0 0 v m = .stable ↔ ¬(v > m ^ 2 / 100))) ∧
    (∀ v m : ℚ, 0 ≤ v → m ≠ 0 →
      (v > m ^ 2 / 100 ↔ Real.sqrt (v : ℝ) / |(m : ℝ)| > 1 / 10)) ∧
    (∀ f l v m : ℚ, |(l - f) / f| = 1/20 →
      classifyPattern f l v m ≠ .bullish ∧ classifyPattern f l v m ≠ .bearish) ∧
    (∀ f l m : ℚ, classifyPattern f l (m ^ 2 / 100) m ≠ .volatile) ∧
    (∀ f l v m : ℚ, 0 < f → specClassify f l v m = classifyPattern f l v m) := by
  refine ⟨?_, classifyPattern_cases, fun l v m => classifyPattern_zero_first l v m,
    cv_sqrt_bridge, ?_, ?_, ?_⟩
  · intro ps w r hfin hlen hmax hw1 hwn hr idx hidx
    obtain ⟨hrec, -⟩ := analyze_windows_getD ps w r hfin hlen hmax hw1 hwn hr idx hidx
    rw [hrec]
    rfl
  · intro f l v m hb
    have hf : f ≠ 0 := by
      intro h0
      rw [h0, div_zero, abs_zero] at hb
      norm_num at hb
    have hcc := classifyPattern_cases f l v m hf
    refine ⟨fun hc => ?_, fun hc => ?_⟩
    · have h := (hcc.1.mp hc).1
      rw [hb] at h
      exact lt_irrefl _ h
    · have h := (hcc.2.1.mp hc).1
      rw [hb] at h
      exact lt_irrefl _ h
  · intro f l m
    simp only [classifyPattern]
    split_ifs with h1 h2 h3
    · simp
    · simp
    · exact absurd h3 (lt_irrefl _)
    · simp
  · intro f l v m hf
    have hne : f ≠ 0 := ne_of_gt hf
    have he : (f = 0 ∧ l ≠ f ∨ f ≠ 0 ∧ |l - f| / f > 1/20) ↔ |l - f| / f > 1/20 := by
      constructor
      · rintro (⟨h0, -⟩ | ⟨-, h⟩)
        · exact absurd h0 hne
        · exact h
      · intro h
        exact Or.inr ⟨hne, h⟩
    simp only [specClassify, classifyPattern, specChangePct]
    simp only [abs_div, abs_of_pos hf]
    simp only [he]

/-- C4 counterexample: with a negative first price the spec's literal formula
changePct = |last - first| / first disagrees with the code; on prices
[-1, -2] with window 2 the program stores bearish while the spec formula
(being negative, hence not above 1/20) classifies the window volatile. -/
theorem c4_spec_formula_counterexample :
    specClassify (-1) (-2) (1/4) (-(3/2)) = Pattern.volatile ∧
    classifyPattern (-1) (-2) (1/4) (-(3/2)) = Pattern.bearish ∧
    ∃ r : WindowResult,
      analyzeSlidingWindow (some [DVal.fin (-1), DVal.fin (-2)]) 2 true true true true =
        (0, some r) ∧
      (r.windows.getD 0 default).pattern = Pattern.bearish := by
  have habs : |((-2 : ℚ) - (-1)) / (-1)| = 1 := by
    rw [show ((-2 : ℚ) - (-1)) / (-1) = 1 by norm_num, abs_one]
  have hspecpct : specChangePct (-1) (-2) = -1 := by
    unfold specChangePct
    rw [show ((-2 : ℚ) - (-1)) = -1 by norm_num,
      show |(-1 : ℚ)| = 1 by rw [abs_neg, abs_one]]
    norm_num
  refine ⟨?_, ?_,
    ⟨_, analyzeSlidingWindow_spec [DVal.fin (-1), DVal.fin (-2)] 2 (by decide) (by decide)
      (by decide) (by decide) (by decide), ?_⟩⟩
  · unfold specClassify
    rw [hspecpct, if_neg (by norm_num), if_neg (by norm_num), if_pos (by norm_num)]
  · exact (classifyPattern_cases _ _ _ _ (by norm_num)).2.1.mpr
      ⟨by rw [habs]; norm_num, by norm_num⟩
  · have hred : ((WindowResult.mk ((List.range
          (([DVal.fin (-1), DVal.fin (-2)] : List DVal).length - 2 + 1)).map
            (wspec (fun k =>
              (([DVal.fin (-1), DVal.fin (-2)] : List DVal).map DVal.toRat).getD k 0) 2))
        (([DVal.fin (-1), DVal.fin (-2)] : List DVal).length - 2 + 1)
        2).windows.getD 0 default) =
        wspec (fun k =>
          (([DVal.fin (-1), DVal.fin (-2)] : List DVal).map DVal.toRat).getD k 0) 2 0 := rfl
    rw [hred]
    show classifyPattern (-1) (-2) _ _ = Pattern.bearish
    exact (classifyPattern_cases _ _ _ _ (by norm_num)).2.1.mpr
      ⟨by rw [habs]; norm_num, by norm_num⟩

/-- C10: for every valid input with strictly positive prices, each window's
first price (the change_pct divisor) and mean (the cv divisor) are strictly
positive, hence nonzero, and the stored pattern is always exactly one of the
four labels. -/
theorem c10_positive_divisors (ps : List DVal) (w : ℕ) (r : WindowResult)
    (hfin : ps.all DVal.isFinite) (hlen : 1 ≤ ps.length)
    (hmax : ps.length ≤ MAX_ARRAY_SIZE) (hw1 : 1 ≤ w) (hwn : w ≤ ps.length)
    (hpos : ∀ x ∈ ps.map DVal.toRat, 0 < x)
    (hr : analyzeSlidingWindow (some ps) w true true true true = (0, some r))
    (idx : ℕ) (hidx : idx < r.num_windows) :
    0 < (ps.map DVal.toRat).getD idx 0 ∧ (ps.map DVal.toRat).getD idx 0 ≠ 0 ∧
    0 < (r.windows.getD idx default).avg ∧ (r.windows.getD idx default).avg ≠ 0 ∧
    ((r.windows.getD idx default).pattern = Pattern.bullish ∨
     (r.windows.getD idx default).pattern = Pattern.bearish ∨
     (r.windows.getD idx default).pattern = Pattern.volatile ∨
     (r.windows.getD idx default).pattern = Pattern.stable) := by
  obtain ⟨hrec, hnum⟩ := analyze_windows_getD ps w r hfin hlen hmax hw1 hwn hr idx hidx
  rw [hnum] at hidx
  have hplen : ∀ j, j < ps.length → 0 < (ps.map DVal.toRat).getD j 0 := by
    intro j hj
    have hj2 : j < (ps.map DVal.toRat).length := by simpa using hj
    rw [List.getD_eq_getElem _ _ hj2]
    exact hpos _ (List.getElem_mem hj2)
  have hfirst : 0 < (ps.map DVal.toRat).getD idx 0 := hplen idx (by omega)
  have hsum : 0 < (windowList (fun k => (ps.map DVal.toRat).getD k 0) w idx).sum := by
    apply List.sum_pos
    · intro x hx
      unfold windowList at hx
      obtain ⟨j, hj, rfl⟩ := List.mem_map.mp hx
      have hj2 := List.mem_range'_1.mp hj
      exact hplen j (by omega)
    · exact windowList_ne_nil _ w idx hw1
  have havg : 0 < (r.windows.getD idx default).avg := by
    rw [hrec]
    show 0 < (windowList (fun k => (ps.map DVal.toRat).getD k 0) w idx).sum / (w : ℚ)
    apply div_pos hsum
    exact_mod_cast hw1
  refine ⟨hfirst, ne_of_gt hfirst, havg, ne_of_gt havg, ?_⟩
  cases h : (r.windows.getD idx default).pattern <;> simp

/-- Witness for c10_positive_divisors. -/
theorem c10_positive_divisors_witness :
    (([DVal.fin 1, DVal.fin 2] : List DVal).all DVal.isFinite) ∧
    (0 < (([DVal.fin 1, DVal.fin 2] : List DVal).map DVal.toRat).getD 0 0 ∧
     (([DVal.fin 1, DVal.fin 2] : List DVal).map DVal.toRat).getD 0 0 ≠ 0 ∧
     0 < ((WindowResult.mk ((List.range 1).map
        (wspec (fun k => (([DVal.fin 1, DVal.fin 2] : List DVal).map DVal.toRat).getD k 0) 2))
        1 2).windows.getD 0 default).avg ∧
     ((WindowResult.mk ((List.range 1).map
        (wspec (fun k => (([DVal.fin 1, DVal.fin 2] : List DVal).map DVal.toRat).getD k 0) 2))
        1 2).windows.getD 0 default).avg ≠ 0 ∧
     (((WindowResult.mk ((List.range 1).map
        (wspec (fun k => (([DVal.fin 1, DVal.fin 2] : List DVal).map DVal.toRat).getD k 0) 2))
        1 2).windows.getD 0 default).pattern = Pattern.bullish ∨
      ((WindowResult.mk ((List.range 1).map
        (wspec (fun k => (([DVal.fin 1, DVal.fin 2] : List DVal).map DVal.toRat).getD k 0) 2))
        1 2).windows.getD 0 default).pattern = Pattern.bearish ∨
      ((WindowResult.mk ((List.range 1).map
        (wspec (fun k => (([DVal.fin 1, DVal.fin 2] : List DVal).map DVal.toRat).getD k 0) 2))
        1 2).windows.getD 0 default).pattern = Pattern.volatile ∨
      ((WindowResult.mk ((List.range 1).map
        (wspec (fun k => (([DVal.fin 1, DVal.fin 2] : List DVal).map DVal.toRat).getD k 0) 2))
        1 2).windows.getD 0 default).pattern = Pattern.stable)) :=
  ⟨by decide,
   c10_positive_divisors [DVal.fin 1, DVal.fin 2] 2 _ (by decide) (by decide) (by decide)
     (by decide) (by decide) (by decide)
     (analyzeSlidingWindow_spec [DVal.fin 1, DVal.fin 2] 2 (by decide) (by decide)
       (by decide) (by decide) (by decide)) 0 (by decide)⟩

/-! ### Deque safety -/

/-- The analyzer state after the first k iterations of the first-window
loop (sliding_window.c lines 162-177). -/
def fwState (p : ℕ → ℚ) (w k : ℕ) : SWState :=
  (List.range k).foldl (firstWindowStep p) (initState w)

theorem maxDqS_bounds (p : ℕ → ℚ) (lo e : ℕ) (dq : CDeque) (w : ℕ)
    (h : MaxDqS p lo e dq w) :
    dq.capacity = w + 1 ∧ dq.front < w + 1 ∧ dq.back < w + 1 ∧
      dq.size ≤ e - lo ∧ ∀ j ∈ dq.toList, lo ≤ j ∧ j < e := by
  obtain ⟨⟨hi, hf, hb, hc⟩, hcap, hinv⟩ := h
  refine ⟨hcap, hcap ▸ hf, hcap ▸ hb, ?_, hinv.2.1⟩
  rw [← toList_length]
  exact dqInv_length _ _ _ _ hinv

theorem maxDqS_prepush (p : ℕ → ℚ) (lo e : ℕ) (dq : CDeque) (w : ℕ)
    (h : MaxDqS p lo e dq w) (pred : ℕ → Bool) :
    (popBackLoop pred dq dq.size).size ≤ e - lo := by
  obtain ⟨hwf, hcap, hinv⟩ := h
  obtain ⟨r1, r2, r3, r4, r5⟩ := popBackLoop_spec pred dq.size dq hwf le_rfl
  rw [← toList_length, r5]
  calc (dropBackWhile pred dq.toList).length
      ≤ dq.toList.length := dropBackWhile_length _ _
    _ ≤ e - lo := by rw [toList_length]; exact (maxDqS_bounds p lo e dq w
        ⟨hwf, hcap, hinv⟩).2.2.2.1

theorem maxDqS_nonempty (p : ℕ → ℚ) (lo e : ℕ) (dq : CDeque) (w : ℕ)
    (h : MaxDqS p lo e dq w) (hlt : lo < e) : dq.isEmpty = false := by
  obtain ⟨hwf, hcap, hinv⟩ := h
  obtain ⟨a, ha, -, -⟩ := hinv.2.2.2 lo le_rfl hlt
  have hne : dq.toList ≠ [] := by
    intro hn
    rw [hn] at ha
    exact absurd ha (List.not_mem_nil a)
  have hsz : dq.size ≠ 0 := fun hz => hne ((toList_eq_nil_iff dq).mpr hz)
  cases hemp : dq.isEmpty
  · rfl
  · exact absurd ((isEmpty_iff_size dq hwf).mp hemp) hsz

/-- C8: throughout analyzeSlidingWindow both deques stay within their
circular allocation of capacity windowSize + 1: the front and back cursors
are always below the capacity, the deque holds at most windowSize entries at
every loop boundary, the deque about to receive a pushBack holds strictly
fewer than windowSize entries after its pops (so the push never overwrites a
live entry), each deque is non-empty at every state where its front is read
for a window's min or max, and every stored index lies inside the current
window. -/
theorem c8_deque_safety :
    (∀ (p : ℕ → ℚ) (w : ℕ), 1 ≤ w → ∀ k, k ≤ w →
      ((fwState p w k).max_dq.capacity = w + 1 ∧
       (fwState p w k).min_dq.capacity = w + 1) ∧
      ((fwState p w k).max_dq.front < w + 1 ∧ (fwState p w k).max_dq.back < w + 1 ∧
       (fwState p w k).min_dq.front < w + 1 ∧ (fwState p w k).min_dq.back < w + 1) ∧
      ((fwState p w k).max_dq.size ≤ k ∧ (fwState p w k).min_dq.size ≤ k) ∧
      (∀ j ∈ (fwState p w k).max_dq.toList, j < k) ∧
      (∀ j ∈ (fwState p w k).min_dq.toList, j < k) ∧
      (k < w →
        (popBackLoop (fun j => decide (p j ≤ p k)) (fwState p w k).max_dq
          (fwState p w k).max_dq.size).size < w ∧
        (popBackLoop (fun j => decide (p k ≤ p j)) (fwState p w k).min_dq
          (fwState p w k).min_dq.size).size < w)) ∧
    (∀ (p : ℕ → ℚ) (w : ℕ), 1 ≤ w → ∀ num, 1 ≤ num →
      ((slidingLoop p w num).1.max_dq.capacity = w + 1 ∧
       (slidingLoop p w num).1.min_dq.capacity = w + 1) ∧
      ((slidingLoop p w num).1.max_dq.front < w + 1 ∧
       (slidingLoop p w num).1.max_dq.back < w + 1 ∧
       (slidingLoop p w num).1.min_dq.front < w + 1 ∧
       (slidingLoop p w num).1.min_dq.back < w + 1) ∧
      ((slidingLoop p w num).1.max_dq.size ≤ w ∧
       (slidingLoop p w num).1.min_dq.size ≤ w) ∧
      ((slidingLoop p w num).1.max_dq.isEmpty = false ∧
       (slidingLoop p w num).1.min_dq.isEmpty = false) ∧
      (∀ j ∈ (slidingLoop p w num).1.max_dq.toList, num - 1 ≤ j ∧ j < num - 1 + w) ∧
      (∀ j ∈ (slidingLoop p w num).1.min_dq.toList, num - 1 ≤ j ∧ j < num - 1 + w)) ∧
    (∀ (p : ℕ → ℚ) (w : ℕ), 1 ≤ w → ∀ i, 1 ≤ i →
      (popBackLoop (fun j => decide (p j ≤ p (i + w - 1)))
        (popFrontLoop (fun j => decide (j ≤ i - 1)) (slidingLoop p w i).1.max_dq
          (slidingLoop p w i).1.max_dq.size)
        (popFrontLoop (fun j => decide (j ≤ i - 1)) (slidingLoop p w i).1.max_dq
          (slidingLoop p w i).1.max_dq.size).size).size < w ∧
      (popBackLoop (fun j => decide (p (i + w - 1) ≤ p j))
        (popFrontLoop (fun j => decide (j ≤ i - 1)) (slidingLoop p w i).1.min_dq
          (slidingLoop p w i).1.min_dq.size)
        (popFrontLoop (fun j => decide (j ≤ i - 1)) (slidingLoop p w i).1.min_dq
          (slidingLoop p w i).1.min_dq.size).size).size < w) := by
  refine ⟨?_, ?_, ?_⟩
  · intro p w hw k hk
    have hinv : SWInv p w 0 k (fwState p w k) := firstWindow_prefix_inv p w hw k hk
    obtain ⟨-, -, hmax, hmin⟩ := hinv
    obtain ⟨hc1, hf1, hb1, hs1, hm1⟩ := maxDqS_bounds _ _ _ _ _ hmax
    obtain ⟨hc2, hf2, hb2, hs2, hm2⟩ := maxDqS_bounds _ _ _ _ _ hmin
    refine ⟨⟨hc1, hc2⟩, ⟨hf1, hb1, hf2, hb2⟩, ⟨by omega, by omega⟩,
      fun j hj => (hm1 j hj).2, fun j hj => (hm2 j hj).2, ?_⟩
    intro hkw
    have h1 := maxDqS_prepush _ _ _ _ _ hmax (fun j => decide (p j ≤ p k))
    have h2 := maxDqS_prepush _ _ _ _ _ hmin (fun j => decide (p k ≤ p j))
    exact ⟨by omega, by omega⟩
  · intro p w hw num hnum
    obtain ⟨hinv, -⟩ := slidingLoop_spec p w hw num hnum
    obtain ⟨-, -, hmax, hmin⟩ := hinv
    obtain ⟨hc1, hf1, hb1, hs1, hm1⟩ := maxDqS_bounds _ _ _ _ _ hmax
    obtain ⟨hc2, hf2, hb2, hs2, hm2⟩ := maxDqS_bounds _ _ _ _ _ hmin
    refine ⟨⟨hc1, hc2⟩, ⟨hf1, hb1, hf2, hb2⟩, ⟨by omega, by omega⟩,
      ⟨maxDqS_nonempty _ _ _ _ _ hmax (by omega),
       maxDqS_nonempty _ _ _ _ _ hmin (by omega)⟩, hm1, hm2⟩
  · intro p w hw i hi
    obtain ⟨hinv, -⟩ := slidingLoop_spec p w hw i hi
    obtain ⟨-, -, hmax, hmin⟩ := hinv
    have hmax1 := maxDqS_dropFront p (i - 1) (i - 1 + w) (i - 1) _ w hmax (by omega)
    have hmin1 := maxDqS_dropFront (fun k => -(p k)) (i - 1) (i - 1 + w) (i - 1) _ w
      hmin (by omega)
    rw [show i - 1 + 1 = i by omega] at hmax1 hmin1
    have h1 := maxDqS_prepush _ _ _ _ _ hmax1 (fun j => decide (p j ≤ p (i + w - 1)))
    have h2 := maxDqS_prepush _ _ _ _ _ hmin1 (fun j => decide (p (i + w - 1) ≤ p j))
    exact ⟨by omega, by omega⟩

/-! ### Status codes and output frame -/

/-- C7: every entry point returns the documented status for each failure,
checks validity before consulting the allocation oracles, and a rejected
call yields no output (no span list, no tree, no query outputs, no window
handle); a successful call returns 0 with its output. -/
theorem c7_status_codes :
    (∀ (oh a1 a2 : Bool), calculateStockSpan none oh a1 a2 = (-1, none)) ∧
    (∀ (ps : List DVal) (a1 a2 : Bool),
      calculateStockSpan (some ps) false a1 a2 = (-1, none)) ∧
    (∀ (ps : List DVal) (a1 a2 : Bool),
      ps.length = 0 ∨ MAX_ARRAY_SIZE < ps.length →
      calculateStockSpan (some ps) true a1 a2 = (-2, none)) ∧
    (∀ (ps : List DVal) (a1 a2 : Bool),
      ¬(ps.length = 0 ∨ MAX_ARRAY_SIZE < ps.length) → ¬ ps.all DVal.isFinite →
      calculateStockSpan (some ps) true a1 a2 = (-4, none)) ∧
    (∀ (ps : List DVal) (a1 a2 : Bool),
      ¬(ps.length = 0 ∨ MAX_ARRAY_SIZE < ps.length) → ps.all DVal.isFinite →
      a1 = false ∨ a2 = false →
      calculateStockSpan (some ps) true a1 a2 = (-3, none)) ∧
    (∀ (ps : List DVal),
      ¬(ps.length = 0 ∨ MAX_ARRAY_SIZE < ps.length) → ps.all DVal.isFinite →
      ∃ spans, calculateStockSpan (some ps) true true true = (0, some spans)) ∧
    (∀ (oh a1 a2 : Bool), buildSegmentTree none oh a1 a2 = (-1, none)) ∧
    (∀ (ps : List DVal) (a1 a2 : Bool),
      buildSegmentTree (some ps) false a1 a2 = (-1, none)) ∧
    (∀ (ps : List DVal) (a1 a2 : Bool),
      ps.length = 0 ∨ MAX_ARRAY_SIZE < ps.length →
      buildSegmentTree (some ps) true a1 a2 = (-2, none)) ∧
    (∀ (ps : List DVal) (a1 a2 : Bool),
      ¬(ps.length = 0 ∨ MAX_ARRAY_SIZE < ps.length) → ¬ ps.all DVal.isFinite →
      buildSegmentTree (some ps) true a1 a2 = (-4, none)) ∧
    (∀ (ps : List DVal) (a1 a2 : Bool),
      ¬(ps.length = 0 ∨ MAX_ARRAY_SIZE < ps.length) → ps.all DVal.isFinite →
      a1 = false ∨ a2 = false →
      buildSegmentTree (some ps) true a1 a2 = (-3, none)) ∧
    (∀ (ps : List DVal),
      ¬(ps.length = 0 ∨ MAX_ARRAY_SIZE < ps.length) → ps.all DVal.isFinite →
      ∃ t, buildSegmentTree (some ps) true true true = (0, some t)) ∧
    (∀ (ql qr : ℕ) (b1 b2 b3 b4 : Bool),
      querySegmentTree none ql qr b1 b2 b3 b4 = (-1, noOut)) ∧
    (∀ (t : SegTree) (ql qr : ℕ) (b1 b2 b3 b4 : Bool),
      qr < ql ∨ t.length ≤ qr →
      querySegmentTree (some t) ql qr b1 b2 b3 b4 = (-2, noOut)) ∧
    (∀ (t : SegTree) (ql qr : ℕ) (b1 b2 b3 b4 : Bool),
      ¬(qr < ql ∨ t.length ≤ qr) →
      (querySegmentTree (some t) ql qr b1 b2 b3 b4).1 = 0) ∧
    (∀ (w : ℕ) (oh a1 a2 a3 : Bool),
      analyzeSlidingWindow none w oh a1 a2 a3 = (-1, none)) ∧
    (∀ (ps : List DVal) (w : ℕ) (a1 a2 a3 : Bool),
      analyzeSlidingWindow (some ps) w false a1 a2 a3 = (-1, none)) ∧
    (∀ (ps : List DVal) (w : ℕ) (a1 a2 a3 : Bool),
      ps.length = 0 ∨ MAX_ARRAY_SIZE < ps.length ∨ w = 0 ∨ ps.length < w →
      analyzeSlidingWindow (some ps) w true a1 a2 a3 = (-2, none)) ∧
    (∀ (ps : List DVal) (w : ℕ) (a1 a2 a3 : Bool),
      ¬(ps.length = 0 ∨ MAX_ARRAY_SIZE < ps.length ∨ w = 0 ∨ ps.length < w) →
      ¬ ps.all DVal.isFinite →
      analyzeSlidingWindow (some ps) w true a1 a2 a3 = (-4, none)) ∧
    (∀ (ps : List DVal) (w : ℕ) (a1 a2 a3 : Bool),
      ¬(ps.length = 0 ∨ MAX_ARRAY_SIZE < ps.length ∨ w = 0 ∨ ps.length < w) →
      ps.all DVal.isFinite → a1 = false ∨ a2 = false ∨ a3 = false →
      analyzeSlidingWindow (some ps) w true a1 a2 a3 = (-3, none)) ∧
    (∀ (ps : List DVal) (w : ℕ),
      ¬(ps.length = 0 ∨ MAX_ARRAY_SIZE < ps.length ∨ w = 0 ∨ ps.length < w) →
      ps.all DVal.isFinite →
      ∃ r, analyzeSlidingWindow (some ps) w true true true true = (0, some r)) := by
  refine ⟨fun oh a1 a2 => rfl, fun ps a1 a2 => rfl, ?_, ?_, ?_, ?_,
    fun oh a1 a2 => rfl, fun ps a1 a2 => rfl, ?_, ?_, ?_, ?_,
    fun ql qr b1 b2 b3 b4 => rfl, ?_, ?_,
    fun w oh a1 a2 a3 => rfl, fun ps w a1 a2 a3 => rfl, ?_, ?_, ?_, ?_⟩
  · intro ps a1 a2 h
    simp only [calculateStockSpan]
    rw [if_neg (by simp), if_pos h]
  · intro ps a1 a2 hl hf
    simp only [calculateStockSpan]
    rw [if_neg (by simp), if_neg hl, if_pos hf]
  · intro ps a1 a2 hl hf ha
    simp only [calculateStockSpan]
    rw [if_neg (by simp), if_neg hl, if_neg (not_not_intro hf)]
    cases a1 with
    | false => simp
    | true =>
      rcases ha with h | h
      · exact absurd h (by simp)
      · subst h
        simp
  · intro ps hl hf
    refine ⟨computeSpans (ps.map DVal.toRat), ?_⟩
    simp only [calculateStockSpan]
    rw [if_neg (by simp), if_neg hl, if_neg (not_not_intro hf), if_neg (by simp),
      if_neg (by simp)]
  · intro ps a1 a2 h
    simp only [buildSegmentTree]
    rw [if_neg (by simp), if_pos h]
  · intro ps a1 a2 hl hf
    simp only [buildSegmentTree]
    rw [if_neg (by simp), if_neg hl, if_pos hf]
  · intro ps a1 a2 hl hf ha
    simp only [buildSegmentTree]
    rw [if_neg (by simp), if_neg hl, if_neg (not_not_intro hf)]
    cases a1 with
    | false => simp
    | true =>
      rcases ha with h | h
      · exact absurd h (by simp)
      · subst h
        simp
  · intro ps hl hf
    refine ⟨⟨buildNodes (ps.map DVal.toRat), ps.length, 2 * ps.length⟩, ?_⟩
    simp only [buildSegmentTree]
    rw [if_neg (by simp), if_neg hl, if_neg (not_not_intro hf), if_neg (by simp),
      if_neg (by simp)]
  · intro t ql qr b1 b2 b3 b4 h
    simp only [querySegmentTree]
    rw [if_pos h]
  · intro t ql qr b1 b2 b3 b4 h
    simp only [querySegmentTree]
    rw [if_neg h]
  · intro ps w a1 a2 a3 h
    simp only [analyzeSlidingWindow]
    rw [if_neg (by simp), if_pos h]
  · intro ps w a1 a2 a3 hl hf
    simp only [analyzeSlidingWindow]
    rw [if_neg (by simp), if_neg hl, if_pos hf]
  · intro ps w a1 a2 a3 hl hf ha
    simp only [analyzeSlidingWindow]
    rw [if_neg (by simp), if_neg hl, if_neg (not_not_intro hf)]
    cases a1 with
    | false => simp
    | true =>
      rcases ha with h | h
      · exact absurd h (by simp)
      · cases a2 with
        | false => simp
        | true =>
          rcases h with h | h
          · exact absurd h (by simp)
          · subst h
            simp
  · intro ps w hl hf
    refine ⟨⟨(slidingLoop (fun k => (ps.map DVal.toRat).getD k 0) w
        (ps.length - w + 1)).2, ps.length - w + 1, w⟩, ?_⟩
    simp only [analyzeSlidingWindow]
    rw [if_neg (by simp), if_neg hl, if_neg (not_not_intro hf), if_neg (by simp),
      if_neg (by simp), if_neg (by simp)]

/-- C9: querySegmentTree and getWindowResult tolerate a missing output
pointer for every statistic: the status never depends on the supplied
output flags, an output is produced exactly for the supplied flags, and
each produced value equals the value the call with every output supplied
computes, so the results are independent of which outputs are requested. -/
theorem c9_output_frame :
    (∀ (tree : Option SegTree) (ql qr : ℕ) (b1 b2 b3 b4 : Bool),
      (querySegmentTree tree ql qr b1 b2 b3 b4).1 =
        (querySegmentTree tree ql qr true true true true).1 ∧
      (querySegmentTree tree ql qr b1 b2 b3 b4).2 =
        ⟨if b1 then (querySegmentTree tree ql qr true true true true).2.min? else none,
         if b2 then (querySegmentTree tree ql qr true true true true).2.max? else none,
         if b3 then (querySegmentTree tree ql qr true true true true).2.avg? else none,
         if b4 then (querySegmentTree tree ql qr true true true true).2.variance?
           else none⟩) ∧
    (∀ (handle : Option WindowResult) (idx : ℕ) (b1 b2 b3 b4 : Bool),
      (getWindowResult handle idx b1 b2 b3 b4).1 =
        (getWindowResult handle idx true true true true).1 ∧
      (getWindowResult handle idx b1 b2 b3 b4).2 =
        (if b1 then (getWindowResult handle idx true true true true).2.1 else none,
         if b2 then (getWindowResult handle idx true true true true).2.2.1 else none,
         if b3 then (getWindowResult handle idx true true true true).2.2.2.1 else none,
         if b4 then (getWindowResult handle idx true true true true).2.2.2.2
           else none)) := by
  constructor
  · intro tree ql qr b1 b2 b3 b4
    cases tree with
    | none => simp [querySegmentTree, noOut]
    | some t =>
      by_cases hc : qr < ql ∨ t.length ≤ qr <;>
        simp [querySegmentTree, hc, noOut]
  · intro handle idx b1 b2 b3 b4
    cases handle with
    | none => simp [getWindowResult]
    | some r =>
      by_cases hc : r.num_windows ≤ idx <;>
        simp [getWindowResult, hc]

end StockWise
